import Mathlib

/-!
# Verification development for `matrix_functions.h`

A shallow embedding of the functions of `src/matrix_functions.h`
(`matrix_transpose_naive`, `matrix_transpose_co`, `matrix_multiply_naive`,
`randInt_init_matrix`, `print_matrix`) together with theorems about them.

Modelling conventions

* `unsigned int` values are natural numbers below `UINT_RANGE = 2 ^ 32`; every `+` and `*`
  the source performs on them is taken modulo `UINT_RANGE` (`uadd`, `umul`).
* A buffer `T* elements` is a `List`; reading or writing outside the list is undefined
  behaviour in C and is reported as `none`.
* The input and the output matrix are distinct objects with disjoint buffers, so a call is a
  function from the two matrices to the two matrices after the call.
* A loop `for (unsigned k = lo; k < hi; k++)` runs its body for `k = lo, lo+1, .., hi-1`
  (nothing when `hi ≤ lo`); `k++` cannot wrap because `k < hi < UINT_RANGE`.
* `rand()` is an arbitrary sequence of non-negative values, `std::cout` the text written so
  far.
* The element type `T` of `matrix_multiply_naive` is a type parameter with its own zero,
  addition and multiplication: `CUnsigned` is `unsigned int` (wrapping arithmetic), `Int`
  the exact integers.
-/

namespace MatrixFunctions

/-- Number of values of the C type `unsigned int` (32 bits). -/
def UINT_RANGE : Nat := 4294967296

/-- Addition of two `unsigned int` values. -/
def uadd (a b : Nat) : Nat := (a + b) % UINT_RANGE

/-- Multiplication of two `unsigned int` values. -/
def umul (a b : Nat) : Nat := (a * b) % UINT_RANGE

/-- The struct `matrix<T>`: two dimension fields and the element buffer. -/
structure matrix (α : Type) where
  rows : Nat
  cols : Nat
  elements : List α
deriving DecidableEq

/-- The element type `unsigned int`: `val` is the value, and the arithmetic of the type is
the wrapping arithmetic of the language (`uadd`, `umul`). -/
structure CUnsigned where
  val : Nat
deriving DecidableEq

instance : Zero CUnsigned := ⟨⟨0⟩⟩

instance : Add CUnsigned := ⟨fun a b => ⟨uadd a.val b.val⟩⟩

instance : Mul CUnsigned := ⟨fun a b => ⟨umul a.val b.val⟩⟩

/-- The assignment `buf[k] = v`; `none` when `k` is outside the buffer. -/
def store {α : Type} (buf : List α) (k : Nat) (v : α) : Option (List α) :=
  if k < buf.length then some (buf.set k v) else none

/-- The loop `for (unsigned k = lo; k < hi; k++) body`, threading the state `s`. -/
def forLoop {σ : Type} (lo hi : Nat) (body : Nat → σ → Option σ) (s : σ) : Option σ :=
  (List.range' lo (hi - lo)).foldlM (fun acc k => body k acc) s

/-- The function `matrix_transpose_naive` (lines 23-35). The result is the pair
(input matrix, output matrix) after the call. The last parameter is unused, as in the source. -/
def matrix_transpose_naive {α : Type} (inMatrix outMatrix : matrix α)
    (rows cols rowOffset colOffset : Nat) (_minSubMatrixSize : Nat) :
    Option (matrix α × matrix α) :=
  let rowLimit := uadd rowOffset rows
  let colLimit := uadd colOffset cols
  (forLoop rowOffset rowLimit (fun i out =>
      forLoop colOffset colLimit (fun j out =>
        (inMatrix.elements[uadd (umul i rows) j]?).bind fun v =>
          store out (uadd (umul j rows) i) v) out)
    outMatrix.elements).map fun e => (inMatrix, { outMatrix with elements := e })

/-- The function `matrix_transpose_co` (lines 101-123). `halfCols` and `halfRows` are `int`
in the source; a half of an `unsigned int` always fits, so the conversions are exact. -/
def matrix_transpose_co {α : Type} (inMatrix outMatrix : matrix α)
    (rows cols rowOffset colOffset minSubMatrixSize : Nat) :
    Option (matrix α × matrix α) :=
  if rows > minSubMatrixSize ∨ cols > minSubMatrixSize then
    if cols ≥ rows then
      let halfCols := cols / 2
      (matrix_transpose_co inMatrix outMatrix rows halfCols rowOffset colOffset
          minSubMatrixSize).bind fun m =>
        matrix_transpose_co m.1 m.2 rows halfCols rowOffset (uadd colOffset halfCols)
          minSubMatrixSize
    else
      let halfRows := rows / 2
      (matrix_transpose_co inMatrix outMatrix halfRows cols rowOffset colOffset
          minSubMatrixSize).bind fun m =>
        matrix_transpose_co m.1 m.2 halfRows cols (uadd rowOffset halfRows) colOffset
          minSubMatrixSize
  else
    matrix_transpose_naive inMatrix outMatrix rows cols rowOffset colOffset 0
termination_by rows + cols
decreasing_by
  all_goals simp_wf
  all_goals omega

/-- The recursion of `matrix_transpose_co` with a bound `fuel` on its depth: the outer
`none` means the bound was reached, the inner value is the outcome of the call. -/
def matrix_transpose_co_fuel {α : Type} : Nat → matrix α → matrix α →
    Nat → Nat → Nat → Nat → Nat → Option (Option (matrix α × matrix α))
  | 0, _, _, _, _, _, _, _ => none
  | fuel + 1, inMatrix, outMatrix, rows, cols, rowOffset, colOffset, minSubMatrixSize =>
    if rows > minSubMatrixSize ∨ cols > minSubMatrixSize then
      if cols ≥ rows then
        let halfCols := cols / 2
        match matrix_transpose_co_fuel fuel inMatrix outMatrix rows halfCols rowOffset
            colOffset minSubMatrixSize with
        | none => none
        | some none => some none
        | some (some m) =>
          matrix_transpose_co_fuel fuel m.1 m.2 rows halfCols rowOffset
            (uadd colOffset halfCols) minSubMatrixSize
      else
        let halfRows := rows / 2
        match matrix_transpose_co_fuel fuel inMatrix outMatrix halfRows cols rowOffset
            colOffset minSubMatrixSize with
        | none => none
        | some none => some none
        | some (some m) =>
          matrix_transpose_co_fuel fuel m.1 m.2 halfRows cols (uadd rowOffset halfRows)
            colOffset minSubMatrixSize
    else
      some (matrix_transpose_naive inMatrix outMatrix rows cols rowOffset colOffset 0)

/-- Transposing twice with `matrix_transpose_naive`: `M` (`r x c`) over its full extent into
`T`, then `T` (`c x r`) over its full extent into `R`; the result is `R` after both calls. -/
def transpose_twice_naive {α : Type} (M T R : matrix α) (r c : Nat) : Option (matrix α) :=
  (matrix_transpose_naive M T r c 0 0 0).bind fun s =>
    (matrix_transpose_naive s.2 R c r 0 0 0).map fun s2 => s2.2

/-- Transposing twice with `matrix_transpose_co`, as `transpose_twice_naive`. -/
def transpose_twice_co {α : Type} (M T R : matrix α) (r c minSubMatrixSize : Nat) :
    Option (matrix α) :=
  (matrix_transpose_co M T r c 0 0 minSubMatrixSize).bind fun s =>
    (matrix_transpose_co s.2 R c r 0 0 minSubMatrixSize).map fun s2 => s2.2

/-- The function `matrix_multiply_naive` (lines 129-140), generic in the element type `T` as
the template is: `T sum = 0` and `sum += a * b` use the zero, the addition and the
multiplication of `T` itself (exact for `Int`, modulo `2 ^ 32` for `CUnsigned`). `matrixA`
and `matrixB` are only read; the result is the output matrix after the call. -/
def matrix_multiply_naive {T : Type} [Zero T] [Add T] [Mul T]
    (outMatrix matrixA matrixB : matrix T) : Option (matrix T) :=
  (forLoop 0 matrixA.rows (fun i out =>
      forLoop 0 matrixB.cols (fun j out =>
        (forLoop 0 matrixA.cols (fun k sum =>
            (matrixA.elements[uadd (umul i matrixA.rows) k]?).bind fun a =>
              (matrixB.elements[uadd (umul k matrixB.cols) j]?).bind fun b =>
                some (sum + a * b)) (0 : T)).bind fun sum =>
          store out (uadd (umul i matrixA.rows) j) sum) out)
    outMatrix.elements).map fun e => { outMatrix with elements := e }

/-! ## Write lists: the sequence of assignments a loop nest performs -/

/-- Perform the assignments `buf[d] = v` of a list, in order. -/
def writeAll {α : Type} : List (Nat × α) → List α → Option (List α)
  | [], buf => some buf
  | p :: ws, buf => (store buf p.1 p.2).bind (writeAll ws)

/-- Collect the assignments of the iterations `ks`, where iteration `k` performs the
assignments `w k` (`none`: the iteration reads outside a buffer). -/
def gather {α : Type} (ks : List Nat) (w : Nat → Option (List (Nat × α))) :
    Option (List (Nat × α)) :=
  match ks with
  | [] => some []
  | k :: ks => (w k).bind fun a => (gather ks w).map fun b => a ++ b

/-- The assignments `matrix_transpose_naive` performs on the output buffer, in loop order
(`none`: some read of the input buffer is out of bounds). -/
def naiveWrites {α : Type} (inE : List α) (rows cols rowOffset colOffset : Nat) :
    Option (List (Nat × α)) :=
  gather (List.range' rowOffset (uadd rowOffset rows - rowOffset)) fun i =>
    gather (List.range' colOffset (uadd colOffset cols - colOffset)) fun j =>
      (inE[uadd (umul i rows) j]?).map fun v => [(uadd (umul j rows) i, v)]

/-- The assignments `matrix_multiply_naive` performs on the output buffer, in loop order
(`none`: some read of `matrixA` or `matrixB` is out of bounds). It depends on `matrixA` and
`matrixB` only. -/
def multiplyWrites {T : Type} [Zero T] [Add T] [Mul T] (matrixA matrixB : matrix T) :
    Option (List (Nat × T)) :=
  gather (List.range' 0 (matrixA.rows - 0)) fun i =>
    gather (List.range' 0 (matrixB.cols - 0)) fun j =>
      (forLoop 0 matrixA.cols (fun k sum =>
          (matrixA.elements[uadd (umul i matrixA.rows) k]?).bind fun a =>
            (matrixB.elements[uadd (umul k matrixB.cols) j]?).bind fun b =>
              some (sum + a * b)) (0 : T)).map fun sum =>
        [(uadd (umul i matrixA.rows) j, sum)]

/-- The value of the last assignment to index `d` in a list of assignments. -/
def lastWrite {α : Type} : List (Nat × α) → Nat → Option α
  | [], _ => none
  | p :: ws, d =>
    match lastWrite ws d with
    | some v => some v
    | none => if p.1 = d then some p.2 else none

/-- Entry (i,j) of the product of an `n x m` matrix `A` and an `m x p` matrix `B`, both
stored row-major, as the specification defines it: the sum over `k < m` of
`A(i,k) * B(k,j)` with `A(i,k) = A[i*m + k]` and `B(k,j) = B[k*p + j]`. -/
def rowMajorProductEntry (A B : List Int) (m p i j : Nat) : Int :=
  ∑ k in Finset.range m, A.getD (i * m + k) 0 * B.getD (k * p + j) 0

/-- The value the inner `k` loop of `matrix_multiply_naive` accumulates for entry (i,j) of
square `n x n` row-major operands: starting from `0`, `sum += A[i*n + k] * B[k*n + j]` for
`k = 0 .. n-1`, in the arithmetic of the element type. -/
def dotAcc {T : Type} [Zero T] [Add T] [Mul T] (A B : List T) (n i j : Nat) : T :=
  (List.range n).foldl (fun sum k => sum + A.getD (i * n + k) 0 * B.getD (k * n + j) 0) 0

/-! ## Base-case regions of the recursive transpose -/

/-- The region arguments `(rows, cols, rowOffset, colOffset)` of one call of
`matrix_transpose_naive`. -/
structure Region where
  rows : Nat
  cols : Nat
  rowOffset : Nat
  colOffset : Nat
deriving DecidableEq

/-- The cells `(i, j)` the two loops of `matrix_transpose_naive` visit on a region:
`rowOffset ≤ i < rowLimit` and `colOffset ≤ j < colLimit`. -/
def Region.covers (reg : Region) (i j : Nat) : Bool :=
  decide (reg.rowOffset ≤ i ∧ i < uadd reg.rowOffset reg.rows ∧
    reg.colOffset ≤ j ∧ j < uadd reg.colOffset reg.cols)

/-- The regions on which `matrix_transpose_co` calls `matrix_transpose_naive`, in call
order: the same tests and the same recursive calls as the source (lines 106-122), with the
base case recorded instead of executed. -/
def coRegions (rows cols rowOffset colOffset minSubMatrixSize : Nat) : List Region :=
  if rows > minSubMatrixSize ∨ cols > minSubMatrixSize then
    if cols ≥ rows then
      let halfCols := cols / 2
      coRegions rows halfCols rowOffset colOffset minSubMatrixSize ++
        coRegions rows halfCols rowOffset (uadd colOffset halfCols) minSubMatrixSize
    else
      let halfRows := rows / 2
      coRegions halfRows cols rowOffset colOffset minSubMatrixSize ++
        coRegions halfRows cols (uadd rowOffset halfRows) colOffset minSubMatrixSize
  else
    [⟨rows, cols, rowOffset, colOffset⟩]
termination_by rows + cols
decreasing_by
  all_goals simp_wf
  all_goals omega

/-- Call `matrix_transpose_naive` on each region of a list, in order. -/
def naiveOnRegions {α : Type} (inMatrix outMatrix : matrix α) (regs : List Region) :
    Option (matrix α × matrix α) :=
  regs.foldlM (fun s reg =>
    matrix_transpose_naive s.1 s.2 reg.rows reg.cols reg.rowOffset reg.colOffset 0)
    (inMatrix, outMatrix)

/-- The output indices `matrix_transpose_naive` writes on a region, in loop order. -/
def naiveWriteIndices (rows cols rowOffset colOffset : Nat) : List Nat :=
  (List.range' rowOffset (uadd rowOffset rows - rowOffset)).flatMap fun i =>
    (List.range' colOffset (uadd colOffset cols - colOffset)).map fun j =>
      uadd (umul j rows) i

/-- The output indices `matrix_transpose_co` writes: those of its base-case calls. -/
def coWriteIndices (rows cols rowOffset colOffset minSubMatrixSize : Nat) : List Nat :=
  (coRegions rows cols rowOffset colOffset minSubMatrixSize).flatMap fun reg =>
    naiveWriteIndices reg.rows reg.cols reg.rowOffset reg.colOffset

/-- The input indices `matrix_transpose_naive` reads on a region, in loop order. -/
def naiveReadIndices (rows cols rowOffset colOffset : Nat) : List Nat :=
  (List.range' rowOffset (uadd rowOffset rows - rowOffset)).flatMap fun i =>
    (List.range' colOffset (uadd colOffset cols - colOffset)).map fun j =>
      uadd (umul i rows) j

/-- The input indices `matrix_transpose_co` reads: those of its base-case calls. -/
def coReadIndices (rows cols rowOffset colOffset minSubMatrixSize : Nat) : List Nat :=
  (coRegions rows cols rowOffset colOffset minSubMatrixSize).flatMap fun reg =>
    naiveReadIndices reg.rows reg.cols reg.rowOffset reg.colOffset

/-! ## Random initialisation and printing -/

/-- The function `randInt_init_matrix` (lines 75-81) on an integer matrix. `rand k` is the
non-negative `int` returned by the `k`-th call of `rand()` after `srand(time(NULL))`; in
`rand() % upper_limit` it is converted to `unsigned int`, and the remainder by zero is
undefined behaviour (`none`). The result is the matrix after the call. -/
def randInt_init_matrix (m : matrix Int) (upper_limit : Nat) (rand : Nat → Nat) :
    Option (matrix Int) :=
  (forLoop 0 (umul m.rows m.cols) (fun i buf =>
      if upper_limit = 0 then none
      else store buf i (((rand i % UINT_RANGE) % upper_limit : Nat) : Int))
    m.elements).map fun e => { m with elements := e }

/-- The function `print_matrix` (lines 40-50). `render` is the text `std::cout <<` produces
for one element, `cout` the text written so far; the result is the text after the call
(`none`: an element is read outside the buffer). -/
def print_matrix {α : Type} (render : α → String) (m : matrix α) (cout : String) :
    Option String :=
  (forLoop 0 m.rows (fun i s =>
      (forLoop 0 m.cols (fun j s =>
          (m.elements[uadd (umul i m.rows) j]?).map fun v => (s ++ render v) ++ " ")
        s).map fun s => s ++ "\n")
    cout).map fun s => s ++ "\n"

/-- The text the specification prescribes for printing an `r x c` row-major matrix: for each
row `i` the rendering of the elements `(i,0) .. (i,c-1)`, element `(i,j)` at index
`i*c + j`, each followed by one space, then a newline; after the last row one more
newline. -/
def rowMajorText {α : Type} (render : α → String) (r c : Nat) (elements : List α) :
    Option String :=
  ((List.range r).foldlM (fun s i =>
      ((List.range c).foldlM (fun s j =>
          (elements[i * c + j]?).map fun v => (s ++ render v) ++ " ") s).map
        fun s => s ++ "\n") "").map fun s => s ++ "\n"

/-! ## Lemmas on write lists -/

theorem uadd_eq {a b : Nat} (h : a + b < UINT_RANGE) : uadd a b = a + b :=
  Nat.mod_eq_of_lt h

theorem uidx_eq {a b c : Nat} (h : a * b + c < UINT_RANGE) : uadd (umul a b) c = a * b + c := by
  have h1 : a * b < UINT_RANGE := by omega
  unfold uadd umul
  rw [Nat.mod_eq_of_lt h1, Nat.mod_eq_of_lt h]

theorem store_eq_some {α : Type} {buf b : List α} {k : Nat} {v : α} :
    store buf k v = some b ↔ k < buf.length ∧ b = buf.set k v := by
  unfold store
  split <;> simp_all [eq_comm]

theorem writeAll_length {α : Type} (ws : List (Nat × α)) :
    ∀ (buf b : List α), writeAll ws buf = some b → b.length = buf.length := by
  induction ws with
  | nil => intro buf b h; simp [writeAll] at h; simp [h]
  | cons p ws ih =>
    intro buf b h
    simp only [writeAll, Option.bind_eq_some] at h
    obtain ⟨b1, h1, h2⟩ := h
    rw [store_eq_some] at h1
    rw [ih b1 b h2, h1.2, List.length_set]

theorem writeAll_append {α : Type} (xs ys : List (Nat × α)) :
    ∀ buf : List α, writeAll (xs ++ ys) buf = (writeAll xs buf).bind (writeAll ys) := by
  induction xs with
  | nil => intro buf; simp [writeAll]
  | cons p xs ih =>
    intro buf
    simp only [List.cons_append, writeAll]
    cases store buf p.1 p.2 with
    | none => simp
    | some b1 => simp [ih]

theorem writeAll_bounds {α : Type} (ws : List (Nat × α)) :
    ∀ (buf b : List α), writeAll ws buf = some b → ∀ p ∈ ws, p.1 < buf.length := by
  induction ws with
  | nil => intro buf b _ p hp; simp at hp
  | cons q ws ih =>
    intro buf b h p hp
    simp only [writeAll, Option.bind_eq_some] at h
    obtain ⟨b1, h1, h2⟩ := h
    rw [store_eq_some] at h1
    rcases List.mem_cons.1 hp with rfl | hp
    · exact h1.1
    · have := ih b1 b h2 p hp
      rw [h1.2, List.length_set] at this
      exact this

theorem writeAll_isSome {α : Type} (ws : List (Nat × α)) :
    ∀ buf : List α, (∀ p ∈ ws, p.1 < buf.length) → ∃ b, writeAll ws buf = some b := by
  induction ws with
  | nil => intro buf _; exact ⟨buf, rfl⟩
  | cons q ws ih =>
    intro buf h
    have hq : q.1 < buf.length := h q (List.mem_cons_self _ _)
    have h1 : store buf q.1 q.2 = some (buf.set q.1 q.2) := store_eq_some.2 ⟨hq, rfl⟩
    obtain ⟨b, hb⟩ := ih (buf.set q.1 q.2) (by
      intro p hp
      rw [List.length_set]
      exact h p (List.mem_cons_of_mem _ hp))
    exact ⟨b, by simp [writeAll, h1, hb]⟩

theorem writeAll_frame {α : Type} (d : Nat) (ws : List (Nat × α)) :
    ∀ (buf b : List α), writeAll ws buf = some b → (∀ p ∈ ws, p.1 ≠ d) → b[d]? = buf[d]? := by
  induction ws with
  | nil => intro buf b h _; simp [writeAll] at h; simp [h]
  | cons q ws ih =>
    intro buf b h hd
    simp only [writeAll, Option.bind_eq_some] at h
    obtain ⟨b1, h1, h2⟩ := h
    rw [store_eq_some] at h1
    rw [ih b1 b h2 (fun p hp => hd p (List.mem_cons_of_mem _ hp)), h1.2]
    exact List.getElem?_set_ne (hd q (List.mem_cons_self _ _))

theorem writeAll_get {α : Type} (d : Nat) (v : α) (ws : List (Nat × α)) :
    ∀ (buf b : List α), writeAll ws buf = some b → (d, v) ∈ ws →
      (∀ p ∈ ws, p.1 = d → p.2 = v) → b[d]? = some v := by
  induction ws with
  | nil => intro buf b _ hm; simp at hm
  | cons q ws ih =>
    intro buf b h hm hf
    simp only [writeAll, Option.bind_eq_some] at h
    obtain ⟨b1, h1, h2⟩ := h
    rw [store_eq_some] at h1
    by_cases hin : (d, v) ∈ ws
    · exact ih b1 b h2 hin (fun p hp => hf p (List.mem_cons_of_mem _ hp))
    · have hq : q = (d, v) := by
        rcases List.mem_cons.1 hm with h | h
        · exact h.symm
        · exact absurd h hin
      have hno : ∀ p ∈ ws, p.1 ≠ d := by
        intro p hp hpd
        have := hf p (List.mem_cons_of_mem _ hp) hpd
        apply hin
        have hpe : p = (d, v) := Prod.ext hpd this
        rw [← hpe]; exact hp
      rw [writeAll_frame d ws b1 b h2 hno, h1.2, hq]
      rw [hq] at h1
      simp [List.getElem?_set_self, h1.1]

theorem gather_mem {α : Type} (w : Nat → Option (List (Nat × α))) (ks : List Nat) :
    ∀ ws, gather ks w = some ws →
      ∀ p, p ∈ ws ↔ ∃ k ∈ ks, ∃ a, w k = some a ∧ p ∈ a := by
  induction ks with
  | nil => intro ws h p; simp [gather] at h; simp [h]
  | cons k ks ih =>
    intro ws h p
    simp only [gather, Option.bind_eq_some, Option.map_eq_some'] at h
    obtain ⟨a, ha, b, hb, rfl⟩ := h
    rw [List.mem_append, ih b hb p]
    constructor
    · rintro (hp | ⟨k1, hk1, a1, ha1, hp⟩)
      · exact ⟨k, List.mem_cons_self _ _, a, ha, hp⟩
      · exact ⟨k1, List.mem_cons_of_mem _ hk1, a1, ha1, hp⟩
    · rintro ⟨k1, hk1, a1, ha1, hp⟩
      rcases List.mem_cons.1 hk1 with rfl | hk1
      · left
        rw [ha] at ha1
        cases ha1
        exact hp
      · exact Or.inr ⟨k1, hk1, a1, ha1, hp⟩

theorem gather_isSome {α : Type} (w : Nat → Option (List (Nat × α))) (ks : List Nat) :
    (∀ k ∈ ks, ∃ a, w k = some a) → ∃ ws, gather ks w = some ws := by
  induction ks with
  | nil => intro _; exact ⟨[], rfl⟩
  | cons k ks ih =>
    intro h
    obtain ⟨a, ha⟩ := h k (List.mem_cons_self _ _)
    obtain ⟨b, hb⟩ := ih (fun k1 hk1 => h k1 (List.mem_cons_of_mem _ hk1))
    exact ⟨a ++ b, by simp [gather, ha, hb]⟩

theorem foldlM_eq_gather {α : Type} (body : Nat → List α → Option (List α))
    (w : Nat → Option (List (Nat × α)))
    (h : ∀ k s, body k s = (w k).bind fun ws => writeAll ws s) (ks : List Nat) :
    ∀ s : List α, ks.foldlM (fun acc k => body k acc) s
      = (gather ks w).bind fun ws => writeAll ws s := by
  induction ks with
  | nil => intro s; simp [gather, writeAll]
  | cons k ks ih =>
    intro s
    rw [List.foldlM_cons, h k s]
    simp only [gather]
    cases hk : w k with
    | none => simp
    | some a =>
      simp only [Option.some_bind, Option.bind_eq_bind]
      cases hw : writeAll a s with
      | none => cases hg : gather ks w <;> simp [writeAll_append, hw]
      | some s1 => cases hg : gather ks w <;> simp [writeAll_append, hw, ih, hg]

theorem forLoop_eq_gather {α : Type} (lo hi : Nat) (body : Nat → List α → Option (List α))
    (w : Nat → Option (List (Nat × α)))
    (h : ∀ k s, body k s = (w k).bind fun ws => writeAll ws s) (s : List α) :
    forLoop lo hi body s
      = (gather (List.range' lo (hi - lo)) w).bind fun ws => writeAll ws s :=
  foldlM_eq_gather body w h _ s

/-! ## `matrix_transpose_naive` as a list of assignments -/

theorem naive_eq_writes {α : Type} (inMatrix outMatrix : matrix α)
    (rows cols rowOffset colOffset m : Nat) :
    matrix_transpose_naive inMatrix outMatrix rows cols rowOffset colOffset m
      = ((naiveWrites inMatrix.elements rows cols rowOffset colOffset).bind fun ws =>
          writeAll ws outMatrix.elements).map
          fun e => (inMatrix, { outMatrix with elements := e }) := by
  unfold matrix_transpose_naive naiveWrites
  simp only
  congr 1
  apply forLoop_eq_gather
  intro i s
  apply forLoop_eq_gather
  intro j s
  cases inMatrix.elements[uadd (umul i rows) j]? with
  | none => simp
  | some v => simp [writeAll]

theorem idx_inj {rows ro i j i2 j2 : Nat} (hi : ro ≤ i) (hi2 : i < ro + rows)
    (hk : ro ≤ i2) (hk2 : i2 < ro + rows) (h : j * rows + i = j2 * rows + i2) :
    i = i2 ∧ j = j2 := by
  rcases lt_trichotomy j j2 with hj | hj | hj
  · have h1 : (j + 1) * rows ≤ j2 * rows := Nat.mul_le_mul_right rows hj
    rw [Nat.succ_mul] at h1
    omega
  · subst hj
    omega
  · have h1 : (j2 + 1) * rows ≤ j * rows := Nat.mul_le_mul_right rows hj
    rw [Nat.succ_mul] at h1
    omega

theorem naiveWrites_spec {α : Type} (inE : List α) (rows cols ro co : Nat)
    (hro : ro + rows < UINT_RANGE) (hco : co + cols < UINT_RANGE)
    (hin : ∀ i j, ro ≤ i → i < ro + rows → co ≤ j → j < co + cols →
      i * rows + j < inE.length)
    (hinU : inE.length ≤ UINT_RANGE)
    (houtU : ∀ i j, ro ≤ i → i < ro + rows → co ≤ j → j < co + cols →
      j * rows + i < UINT_RANGE) :
    ∃ ws, naiveWrites inE rows cols ro co = some ws ∧
      ∀ p, p ∈ ws ↔ ∃ i j, (ro ≤ i ∧ i < ro + rows ∧ co ≤ j ∧ j < co + cols) ∧
        p.1 = j * rows + i ∧ inE[i * rows + j]? = some p.2 := by
  have hR : uadd ro rows - ro = rows := by rw [uadd_eq hro]; omega
  have hC : uadd co cols - co = cols := by rw [uadd_eq hco]; omega
  unfold naiveWrites
  rw [hR, hC]
  have cell : ∀ i j, ro ≤ i → i < ro + rows → co ≤ j → j < co + cols →
      ((inE[uadd (umul i rows) j]?).map fun v => [(uadd (umul j rows) i, v)])
        = (inE[i * rows + j]?).map fun v => [(j * rows + i, v)] := by
    intro i j h1 h2 h3 h4
    have hlt := hin i j h1 h2 h3 h4
    have e1 : uadd (umul i rows) j = i * rows + j := uidx_eq (by omega)
    have e2 : uadd (umul j rows) i = j * rows + i := uidx_eq (houtU i j h1 h2 h3 h4)
    rw [e1, e2]
  have inner : ∀ i, ro ≤ i → i < ro + rows →
      ∃ a, gather (List.range' co cols) (fun j =>
        (inE[uadd (umul i rows) j]?).map fun v => [(uadd (umul j rows) i, v)]) = some a := by
    intro i h1 h2
    apply gather_isSome
    intro j hj
    rw [List.mem_range'_1] at hj
    rw [cell i j h1 h2 hj.1 hj.2]
    have := hin i j h1 h2 hj.1 hj.2
    exact ⟨[(j * rows + i, inE[i * rows + j])], by simp [List.getElem?_eq_getElem this]⟩
  obtain ⟨ws, hws⟩ := gather_isSome _ (List.range' ro rows) (fun i hi => by
    rw [List.mem_range'_1] at hi
    exact inner i hi.1 hi.2)
  refine ⟨ws, hws, fun p => ?_⟩
  rw [gather_mem _ _ ws hws p]
  constructor
  · rintro ⟨i, hi, a, ha, hp⟩
    rw [List.mem_range'_1] at hi
    rw [gather_mem _ _ a ha p] at hp
    obtain ⟨j, hj, b, hb, hpb⟩ := hp
    rw [List.mem_range'_1] at hj
    rw [cell i j hi.1 hi.2 hj.1 hj.2, Option.map_eq_some'] at hb
    obtain ⟨v, hv, rfl⟩ := hb
    rw [List.mem_singleton] at hpb
    subst hpb
    exact ⟨i, j, ⟨hi.1, hi.2, hj.1, hj.2⟩, rfl, hv⟩
  · rintro ⟨i, j, ⟨h1, h2, h3, h4⟩, hd, hv⟩
    obtain ⟨a, ha⟩ := inner i h1 h2
    refine ⟨i, List.mem_range'_1.2 ⟨h1, h2⟩, a, ha, ?_⟩
    rw [gather_mem _ _ a ha p]
    refine ⟨j, List.mem_range'_1.2 ⟨h3, h4⟩, [p], ?_, List.mem_singleton_self p⟩
    rw [cell i j h1 h2 h3 h4, hv, Option.map_some', ← hd]

/-- What one call of `matrix_transpose_naive` does when no index computation overflows and
every index is inside its buffer: it succeeds, `out[j*rows+i] = in[i*rows+j]` for every cell
of the region, and every other output entry is untouched. -/
theorem naive_spec {α : Type} (inMatrix outMatrix : matrix α) (rows cols ro co m : Nat)
    (hro : ro + rows < UINT_RANGE) (hco : co + cols < UINT_RANGE)
    (hin : ∀ i j, ro ≤ i → i < ro + rows → co ≤ j → j < co + cols →
      i * rows + j < inMatrix.elements.length)
    (hout : ∀ i j, ro ≤ i → i < ro + rows → co ≤ j → j < co + cols →
      j * rows + i < outMatrix.elements.length)
    (hinU : inMatrix.elements.length ≤ UINT_RANGE)
    (houtU : outMatrix.elements.length ≤ UINT_RANGE) :
    ∃ e, matrix_transpose_naive inMatrix outMatrix rows cols ro co m
          = some (inMatrix, { outMatrix with elements := e }) ∧
      e.length = outMatrix.elements.length ∧
      (∀ i j, ro ≤ i → i < ro + rows → co ≤ j → j < co + cols →
        e[j * rows + i]? = inMatrix.elements[i * rows + j]?) ∧
      (∀ k, (∀ i j, ro ≤ i → i < ro + rows → co ≤ j → j < co + cols → k ≠ j * rows + i) →
        e[k]? = outMatrix.elements[k]?) := by
  obtain ⟨ws, hws, hmem⟩ := naiveWrites_spec inMatrix.elements rows cols ro co hro hco hin hinU
    (fun i j h1 h2 h3 h4 => lt_of_lt_of_le (hout i j h1 h2 h3 h4) houtU)
  obtain ⟨e, he⟩ := writeAll_isSome ws outMatrix.elements (by
    intro p hp
    obtain ⟨i, j, ⟨h1, h2, h3, h4⟩, hd, _⟩ := (hmem p).1 hp
    rw [hd]
    exact hout i j h1 h2 h3 h4)
  refine ⟨e, ?_, writeAll_length ws _ e he, ?_, ?_⟩
  · rw [naive_eq_writes, hws]
    simp [he]
  · intro i j h1 h2 h3 h4
    have hlt := hin i j h1 h2 h3 h4
    rw [List.getElem?_eq_getElem hlt]
    apply writeAll_get _ _ ws _ e he
    · exact (hmem _).2 ⟨i, j, ⟨h1, h2, h3, h4⟩, rfl, List.getElem?_eq_getElem hlt⟩
    · intro p hp hpd
      obtain ⟨i2, j2, ⟨g1, g2, _, _⟩, hd, hv⟩ := (hmem p).1 hp
      rw [hd] at hpd
      obtain ⟨hi, hj⟩ := idx_inj g1 g2 h1 h2 hpd
      subst hi hj
      rw [List.getElem?_eq_getElem hlt] at hv
      exact (Option.some.inj hv).symm
  · intro k hk
    apply writeAll_frame k ws _ e he
    intro p hp hpk
    obtain ⟨i, j, ⟨h1, h2, h3, h4⟩, hd, _⟩ := (hmem p).1 hp
    exact hk i j h1 h2 h3 h4 (by rw [← hpk, hd])

/-! ## The recursive transpose: base case and bounded recursion depth -/

theorem co_base {α : Type} (inMatrix outMatrix : matrix α)
    (rows cols ro co minSubMatrixSize : Nat)
    (hr : rows ≤ minSubMatrixSize) (hc : cols ≤ minSubMatrixSize) :
    matrix_transpose_co inMatrix outMatrix rows cols ro co minSubMatrixSize
      = matrix_transpose_naive inMatrix outMatrix rows cols ro co 0 := by
  rw [matrix_transpose_co]
  have h : ¬ (rows > minSubMatrixSize ∨ cols > minSubMatrixSize) := by omega
  simp only [h, if_false]

theorem co_fuel_eq {α : Type} (fuel : Nat) :
    ∀ (inMatrix outMatrix : matrix α) (rows cols ro co minSubMatrixSize : Nat),
      rows + cols < fuel →
      matrix_transpose_co_fuel fuel inMatrix outMatrix rows cols ro co minSubMatrixSize
        = some (matrix_transpose_co inMatrix outMatrix rows cols ro co minSubMatrixSize) := by
  induction fuel with
  | zero => intro _ _ rows cols _ _ _ h; omega
  | succ fuel ih =>
    intro inMatrix outMatrix rows cols ro co minSubMatrixSize h
    rw [matrix_transpose_co_fuel, matrix_transpose_co]
    by_cases hs : rows > minSubMatrixSize ∨ cols > minSubMatrixSize
    · simp only [hs, if_true]
      by_cases hc : cols ≥ rows
      · simp only [hc, if_true]
        have hlt : rows + cols / 2 < fuel := by omega
        rw [ih _ _ _ _ _ _ _ hlt]
        cases matrix_transpose_co inMatrix outMatrix rows (cols / 2) ro co
            minSubMatrixSize with
        | none => rfl
        | some m => exact ih _ _ _ _ _ _ _ hlt
      · simp only [hc, if_false]
        have hlt : rows / 2 + cols < fuel := by omega
        rw [ih _ _ _ _ _ _ _ hlt]
        cases matrix_transpose_co inMatrix outMatrix (rows / 2) cols ro co
            minSubMatrixSize with
        | none => rfl
        | some m => exact ih _ _ _ _ _ _ _ hlt
    · simp only [hs, if_false]

theorem sq_lt_uint {n : Nat} (h : n * n ≤ UINT_RANGE) : n < UINT_RANGE := by
  unfold UINT_RANGE at *
  by_contra hc
  have h1 : 4294967296 ≤ n := by omega
  have h2 : 4294967296 * 4294967296 ≤ n * n := Nat.mul_le_mul h1 h1
  omega

theorem sq_idx_lt {n i j : Nat} (hi : i < n) (hj : j < n) : i * n + j < n * n := by
  have h1 : (i + 1) * n ≤ n * n := Nat.mul_le_mul_right n hi
  rw [Nat.succ_mul] at h1
  omega

/-- Full-extent call of `matrix_transpose_naive` on square `n x n` buffers. -/
theorem naive_square {α : Type} (n m : Nat) (inMatrix outMatrix : matrix α)
    (hin : inMatrix.elements.length = n * n) (hout : outMatrix.elements.length = n * n)
    (hn : n * n ≤ UINT_RANGE) :
    ∃ e, matrix_transpose_naive inMatrix outMatrix n n 0 0 m
          = some (inMatrix, { outMatrix with elements := e }) ∧
      e.length = n * n ∧
      ∀ i j, i < n → j < n → e[j * n + i]? = inMatrix.elements[i * n + j]? := by
  have hlt := sq_lt_uint hn
  obtain ⟨e, he, hlen, hget, _⟩ := naive_spec inMatrix outMatrix n n 0 0 m
    (by omega) (by omega)
    (fun i j _ h2 _ h4 => by rw [hin]; exact sq_idx_lt (by omega) (by omega))
    (fun i j _ h2 _ h4 => by rw [hout]; exact sq_idx_lt (by omega) (by omega))
    (by omega) (by omega)
  exact ⟨e, he, by rw [hlen, hout], fun i j hi hj =>
    hget i j (Nat.zero_le _) (by omega) (Nat.zero_le _) (by omega)⟩

theorem naive_twice_square {α : Type} (n m1 m2 : Nat) (M T R : matrix α)
    (hM : M.elements.length = n * n) (hT : T.elements.length = n * n)
    (hR : R.elements.length = n * n) (hn : n * n ≤ UINT_RANGE) :
    ∃ t r, matrix_transpose_naive M T n n 0 0 m1 = some (M, { T with elements := t }) ∧
      matrix_transpose_naive { T with elements := t } R n n 0 0 m2
        = some ({ T with elements := t }, { R with elements := r }) ∧
      r = M.elements := by
  obtain ⟨t, ht, htl, htg⟩ := naive_square n m1 M T hM hT hn
  obtain ⟨r, hr, hrl, hrg⟩ := naive_square n m2 { T with elements := t } R htl hR hn
  refine ⟨t, r, ht, hr, ?_⟩
  apply List.ext_getElem?
  intro k
  by_cases hk : k < n * n
  · have hnpos : 0 < n := by
      rcases Nat.eq_zero_or_pos n with h | h
      · subst h; omega
      · exact h
    have hi : k / n < n := (Nat.div_lt_iff_lt_mul hnpos).2 hk
    have hj : k % n < n := Nat.mod_lt _ hnpos
    have hk2 : k = k / n * n + k % n := by
      rw [Nat.mul_comm]; exact (Nat.div_add_mod k n).symm
    rw [hk2, hrg (k % n) (k / n) hj hi]
    exact htg (k / n) (k % n) hi hj
  · rw [List.getElem?_eq_none (by omega), List.getElem?_eq_none (by omega)]

/-! ## `matrix_multiply_naive` as a list of assignments -/

theorem multiply_eq_writes {T : Type} [Zero T] [Add T] [Mul T]
    (outMatrix matrixA matrixB : matrix T) :
    matrix_multiply_naive outMatrix matrixA matrixB
      = ((multiplyWrites matrixA matrixB).bind fun ws =>
          writeAll ws outMatrix.elements).map
          fun e => { outMatrix with elements := e } := by
  unfold matrix_multiply_naive multiplyWrites
  congr 1
  apply forLoop_eq_gather
  intro i s
  apply forLoop_eq_gather
  intro j s
  cases forLoop 0 matrixA.cols (fun k sum =>
      (matrixA.elements[uadd (umul i matrixA.rows) k]?).bind fun a =>
        (matrixB.elements[uadd (umul k matrixB.cols) j]?).bind fun b =>
          some (sum + a * b)) (0 : T) with
  | none => simp
  | some v => simp [writeAll]

theorem gather_some_inv {α : Type} (w : Nat → Option (List (Nat × α))) (ks : List Nat) :
    ∀ ws, gather ks w = some ws → ∀ k ∈ ks, ∃ a, w k = some a := by
  induction ks with
  | nil => intro ws _ k hk; simp at hk
  | cons k0 ks ih =>
    intro ws h k hk
    simp only [gather, Option.bind_eq_some, Option.map_eq_some'] at h
    obtain ⟨a, ha, b, hb, _⟩ := h
    rcases List.mem_cons.1 hk with rfl | hk
    · exact ⟨a, ha⟩
    · exact ih b hb k hk

theorem lastWrite_eq_none {α : Type} (d : Nat) (ws : List (Nat × α)) :
    lastWrite ws d = none → ∀ p ∈ ws, p.1 ≠ d := by
  induction ws with
  | nil => intro _ p hp; simp at hp
  | cons q ws ih =>
    intro h p hp
    simp only [lastWrite] at h
    cases hl : lastWrite ws d with
    | some v => rw [hl] at h; simp at h
    | none =>
      rw [hl] at h
      simp only at h
      rcases List.mem_cons.1 hp with rfl | hp
      · intro hpd; simp [hpd] at h
      · exact ih hl p hp

theorem lastWrite_eq_some {α : Type} (d : Nat) (v : α) (ws : List (Nat × α)) :
    lastWrite ws d = some v → (d, v) ∈ ws := by
  induction ws with
  | nil => intro h; simp [lastWrite] at h
  | cons q ws ih =>
    intro h
    simp only [lastWrite] at h
    cases hl : lastWrite ws d with
    | some v2 =>
      rw [hl] at h
      simp only [Option.some.injEq] at h
      subst h
      exact List.mem_cons_of_mem _ (ih hl)
    | none =>
      rw [hl] at h
      simp only at h
      by_cases hq : q.1 = d
      · simp only [hq, if_true, Option.some.injEq] at h
        have : q = (d, v) := Prod.ext hq h
        rw [this]
        exact List.mem_cons_self _ _
      · simp [hq] at h

theorem writeAll_lastWrite {α : Type} (d : Nat) (ws : List (Nat × α)) :
    ∀ (buf b : List α), writeAll ws buf = some b → (∃ p ∈ ws, p.1 = d) →
      b[d]? = lastWrite ws d := by
  induction ws with
  | nil => intro buf b _ h; obtain ⟨p, hp, _⟩ := h; simp at hp
  | cons q ws ih =>
    intro buf b h hd
    simp only [writeAll, Option.bind_eq_some] at h
    obtain ⟨b1, h1, h2⟩ := h
    rw [store_eq_some] at h1
    simp only [lastWrite]
    cases hl : lastWrite ws d with
    | some v =>
      simp only
      rw [← hl]
      exact ih b1 b h2 ⟨(d, v), lastWrite_eq_some d v ws hl, rfl⟩
    | none =>
      simp only
      have hno := lastWrite_eq_none d ws hl
      have hq : q.1 = d := by
        obtain ⟨p, hp, hpd⟩ := hd
        rcases List.mem_cons.1 hp with rfl | hp
        · exact hpd
        · exact absurd hpd (hno p hp)
      rw [writeAll_frame d ws b1 b h2 hno, h1.2, if_pos hq, ← hq]
      simp [List.getElem?_set_self, h1.1]

theorem list_sum_range (f : Nat → Int) (n : Nat) :
    ((List.range' 0 n).map f).sum = ∑ k in Finset.range n, f k := by
  rw [← List.range_eq_range']
  induction n with
  | zero => simp
  | succ n ih => rw [List.range_succ, List.map_append, List.sum_append, ih,
      Finset.sum_range_succ]; simp

theorem dot_fold (A B : List Int) (f g : Nat → Nat) (ks : List Nat) :
    ∀ s : Int, (∀ k ∈ ks, f k < A.length ∧ g k < B.length) →
      ks.foldlM (fun sum k => (A[f k]?).bind fun a => (B[g k]?).bind fun b =>
          some (sum + a * b)) s
        = some (s + (ks.map fun k => A.getD (f k) 0 * B.getD (g k) 0).sum) := by
  induction ks with
  | nil => intro s _; simp
  | cons k ks ih =>
    intro s h
    obtain ⟨hf, hg⟩ := h k (List.mem_cons_self _ _)
    have ha : A[f k]? = some (A.getD (f k) 0) := by
      rw [List.getD_eq_getElem?_getD, List.getElem?_eq_getElem hf]; rfl
    have hb : B[g k]? = some (B.getD (g k) 0) := by
      rw [List.getD_eq_getElem?_getD, List.getElem?_eq_getElem hg]; rfl
    rw [List.foldlM_cons, ha, hb]
    simp only [Option.some_bind, Option.bind_eq_bind]
    rw [ih _ (fun k1 hk1 => h k1 (List.mem_cons_of_mem _ hk1))]
    simp [add_assoc]

/-- The inner `k` loop of `matrix_multiply_naive` on square `n x n` operands. -/
theorem inner_square (n : Nat) (matrixA matrixB : matrix Int)
    (hAr : matrixA.rows = n) (hAc : matrixA.cols = n) (hBc : matrixB.cols = n)
    (hA : matrixA.elements.length = n * n) (hB : matrixB.elements.length = n * n)
    (hn : n * n ≤ UINT_RANGE) (i j : Nat) (hi : i < n) (hj : j < n) :
    forLoop 0 matrixA.cols (fun k sum =>
        (matrixA.elements[uadd (umul i matrixA.rows) k]?).bind fun a =>
          (matrixB.elements[uadd (umul k matrixB.cols) j]?).bind fun b =>
            some (sum + a * b)) (0 : Int)
      = some (rowMajorProductEntry matrixA.elements matrixB.elements n n i j) := by
  have idxA : ∀ k, k < n → uadd (umul i n) k = i * n + k := fun k hk =>
    uidx_eq (lt_of_lt_of_le (sq_idx_lt hi hk) hn)
  have idxB : ∀ k, k < n → uadd (umul k n) j = k * n + j := fun k hk =>
    uidx_eq (lt_of_lt_of_le (sq_idx_lt hk hj) hn)
  unfold forLoop
  rw [hAr, hAc, hBc]
  have h := dot_fold matrixA.elements matrixB.elements (fun k => uadd (umul i n) k)
    (fun k => uadd (umul k n) j) (List.range' 0 (n - 0)) 0 (by
      intro k hk
      rw [List.mem_range'_1] at hk
      have hk2 : k < n := by omega
      simp only
      rw [idxA k hk2, idxB k hk2, hA, hB]
      exact ⟨sq_idx_lt hi hk2, sq_idx_lt hk2 hj⟩)
  simp only at h
  rw [h, zero_add, Nat.sub_zero, list_sum_range]
  unfold rowMajorProductEntry
  congr 1
  apply Finset.sum_congr rfl
  intro k hk
  rw [Finset.mem_range] at hk
  rw [idxA k hk, idxB k hk]

theorem multiplyWrites_square (n : Nat) (matrixA matrixB : matrix Int)
    (hAr : matrixA.rows = n) (hAc : matrixA.cols = n) (hBc : matrixB.cols = n)
    (hA : matrixA.elements.length = n * n) (hB : matrixB.elements.length = n * n)
    (hn : n * n ≤ UINT_RANGE) :
    ∃ ws, multiplyWrites matrixA matrixB = some ws ∧
      ∀ p, p ∈ ws ↔ ∃ i j, i < n ∧ j < n ∧
        p = (i * n + j, rowMajorProductEntry matrixA.elements matrixB.elements n n i j) := by
  have cell : ∀ i j, i < n → j < n →
      ((forLoop 0 matrixA.cols (fun k sum =>
          (matrixA.elements[uadd (umul i matrixA.rows) k]?).bind fun a =>
            (matrixB.elements[uadd (umul k matrixB.cols) j]?).bind fun b =>
              some (sum + a * b)) (0 : Int)).map fun sum =>
        [(uadd (umul i matrixA.rows) j, sum)])
      = some [(i * n + j,
          rowMajorProductEntry matrixA.elements matrixB.elements n n i j)] := by
    intro i j hi hj
    rw [inner_square n matrixA matrixB hAr hAc hBc hA hB hn i j hi hj, hAr]
    have e : uadd (umul i n) j = i * n + j :=
      uidx_eq (lt_of_lt_of_le (sq_idx_lt hi hj) hn)
    rw [e]
    rfl
  have inner : ∀ i, i < n → ∃ a, gather (List.range' 0 (matrixB.cols - 0)) (fun j =>
      (forLoop 0 matrixA.cols (fun k sum =>
          (matrixA.elements[uadd (umul i matrixA.rows) k]?).bind fun a =>
            (matrixB.elements[uadd (umul k matrixB.cols) j]?).bind fun b =>
              some (sum + a * b)) (0 : Int)).map fun sum =>
        [(uadd (umul i matrixA.rows) j, sum)]) = some a := by
    intro i hi
    apply gather_isSome
    intro j hj
    rw [List.mem_range'_1, hBc] at hj
    exact ⟨_, cell i j hi (by omega)⟩
  unfold multiplyWrites
  obtain ⟨ws, hws⟩ := gather_isSome _ (List.range' 0 (matrixA.rows - 0)) (fun i hi => by
    rw [List.mem_range'_1, hAr] at hi
    exact inner i (by omega))
  refine ⟨ws, hws, fun p => ?_⟩
  rw [gather_mem _ _ ws hws p]
  constructor
  · rintro ⟨i, hi, a, ha, hp⟩
    rw [List.mem_range'_1, hAr] at hi
    rw [gather_mem _ _ a ha p] at hp
    obtain ⟨j, hj, b, hb, hpb⟩ := hp
    rw [List.mem_range'_1, hBc] at hj
    rw [cell i j (by omega) (by omega)] at hb
    cases hb
    rw [List.mem_singleton] at hpb
    exact ⟨i, j, by omega, by omega, hpb⟩
  · rintro ⟨i, j, hi, hj, hp⟩
    obtain ⟨a, ha⟩ := inner i hi
    refine ⟨i, List.mem_range'_1.2 (by rw [hAr]; omega), a, ha, ?_⟩
    rw [gather_mem _ _ a ha p]
    refine ⟨j, List.mem_range'_1.2 (by rw [hBc]; omega), _, cell i j hi hj, ?_⟩
    rw [hp]
    exact List.mem_singleton_self _

/-- The effect of `matrix_multiply_naive` on square `n x n` operands: the call succeeds and
`out[i*n + j]` holds the row-major product entry (i,j). -/
theorem multiply_square (n : Nat) (outMatrix matrixA matrixB : matrix Int)
    (hAr : matrixA.rows = n) (hAc : matrixA.cols = n) (hBc : matrixB.cols = n)
    (hA : matrixA.elements.length = n * n) (hB : matrixB.elements.length = n * n)
    (hO : n * n ≤ outMatrix.elements.length) (hn : n * n ≤ UINT_RANGE) :
    ∃ e, matrix_multiply_naive outMatrix matrixA matrixB
          = some { outMatrix with elements := e } ∧
      e.length = outMatrix.elements.length ∧
      ∀ i j, i < n → j < n →
        e[i * n + j]?
          = some (rowMajorProductEntry matrixA.elements matrixB.elements n n i j) := by
  obtain ⟨ws, hws, hmem⟩ := multiplyWrites_square n matrixA matrixB hAr hAc hBc hA hB hn
  obtain ⟨e, he⟩ := writeAll_isSome ws outMatrix.elements (by
    intro p hp
    obtain ⟨i, j, hi, hj, rfl⟩ := (hmem p).1 hp
    exact lt_of_lt_of_le (sq_idx_lt hi hj) hO)
  refine ⟨e, ?_, writeAll_length ws _ e he, ?_⟩
  · rw [multiply_eq_writes, hws]
    simp [he]
  · intro i j hi hj
    apply writeAll_get _ _ ws _ e he ((hmem _).2 ⟨i, j, hi, hj, rfl⟩)
    intro p hp hpd
    obtain ⟨i2, j2, hi2, hj2, rfl⟩ := (hmem p).1 hp
    simp only at hpd
    obtain ⟨h1, h2⟩ := idx_inj (Nat.zero_le _) (by omega) (Nat.zero_le _) (by omega) hpd
    subst h1 h2
    rfl

/-! ## The multiplication in the arithmetic of the element type -/

theorem dot_fold_acc {T : Type} [Zero T] [Add T] [Mul T] (A B : List T) (f g : Nat → Nat)
    (ks : List Nat) :
    ∀ s : T, (∀ k ∈ ks, f k < A.length ∧ g k < B.length) →
      ks.foldlM (fun sum k => (A[f k]?).bind fun a => (B[g k]?).bind fun b =>
          some (sum + a * b)) s
        = some (ks.foldl (fun sum k => sum + A.getD (f k) 0 * B.getD (g k) 0) s) := by
  induction ks with
  | nil => intro s _; simp
  | cons k ks ih =>
    intro s h
    obtain ⟨hf, hg⟩ := h k (List.mem_cons_self _ _)
    have ha : A[f k]? = some (A.getD (f k) 0) := by
      rw [List.getD_eq_getElem?_getD, List.getElem?_eq_getElem hf]; rfl
    have hb : B[g k]? = some (B.getD (g k) 0) := by
      rw [List.getD_eq_getElem?_getD, List.getElem?_eq_getElem hg]; rfl
    rw [List.foldlM_cons, ha, hb]
    simp only [Option.some_bind, Option.bind_eq_bind]
    rw [ih _ (fun k1 hk1 => h k1 (List.mem_cons_of_mem _ hk1))]
    rfl

/-- The inner `k` loop of `matrix_multiply_naive` on square `n x n` operands of any element
type. -/
theorem inner_square_acc {T : Type} [Zero T] [Add T] [Mul T] (n : Nat)
    (matrixA matrixB : matrix T)
    (hAr : matrixA.rows = n) (hAc : matrixA.cols = n) (hBc : matrixB.cols = n)
    (hA : matrixA.elements.length = n * n) (hB : matrixB.elements.length = n * n)
    (hn : n * n ≤ UINT_RANGE) (i j : Nat) (hi : i < n) (hj : j < n) :
    forLoop 0 matrixA.cols (fun k sum =>
        (matrixA.elements[uadd (umul i matrixA.rows) k]?).bind fun a =>
          (matrixB.elements[uadd (umul k matrixB.cols) j]?).bind fun b =>
            some (sum + a * b)) (0 : T)
      = some (dotAcc matrixA.elements matrixB.elements n i j) := by
  have idxA : ∀ k, k < n → uadd (umul i n) k = i * n + k := fun k hk =>
    uidx_eq (lt_of_lt_of_le (sq_idx_lt hi hk) hn)
  have idxB : ∀ k, k < n → uadd (umul k n) j = k * n + j := fun k hk =>
    uidx_eq (lt_of_lt_of_le (sq_idx_lt hk hj) hn)
  unfold forLoop
  rw [hAr, hAc, hBc]
  have h := dot_fold_acc matrixA.elements matrixB.elements (fun k => uadd (umul i n) k)
    (fun k => uadd (umul k n) j) (List.range' 0 (n - 0)) 0 (by
      intro k hk
      rw [List.mem_range'_1] at hk
      have hk2 : k < n := by omega
      simp only
      rw [idxA k hk2, idxB k hk2, hA, hB]
      exact ⟨sq_idx_lt hi hk2, sq_idx_lt hk2 hj⟩)
  simp only at h
  rw [h, Nat.sub_zero, ← List.range_eq_range']
  unfold dotAcc
  congr 1
  apply List.foldl_ext
  intro s k hk
  rw [List.mem_range] at hk
  rw [idxA k hk, idxB k hk]

theorem multiplyWrites_square_acc {T : Type} [Zero T] [Add T] [Mul T] (n : Nat)
    (matrixA matrixB : matrix T)
    (hAr : matrixA.rows = n) (hAc : matrixA.cols = n) (hBc : matrixB.cols = n)
    (hA : matrixA.elements.length = n * n) (hB : matrixB.elements.length = n * n)
    (hn : n * n ≤ UINT_RANGE) :
    ∃ ws, multiplyWrites matrixA matrixB = some ws ∧
      ∀ p, p ∈ ws ↔ ∃ i j, i < n ∧ j < n ∧
        p = (i * n + j, dotAcc matrixA.elements matrixB.elements n i j) := by
  have cell : ∀ i j, i < n → j < n →
      ((forLoop 0 matrixA.cols (fun k sum =>
          (matrixA.elements[uadd (umul i matrixA.rows) k]?).bind fun a =>
            (matrixB.elements[uadd (umul k matrixB.cols) j]?).bind fun b =>
              some (sum + a * b)) (0 : T)).map fun sum =>
        [(uadd (umul i matrixA.rows) j, sum)])
      = some [(i * n + j,
          dotAcc matrixA.elements matrixB.elements n i j)] := by
    intro i j hi hj
    rw [inner_square_acc n matrixA matrixB hAr hAc hBc hA hB hn i j hi hj, hAr]
    have e : uadd (umul i n) j = i * n + j :=
      uidx_eq (lt_of_lt_of_le (sq_idx_lt hi hj) hn)
    rw [e]
    rfl
  have inner : ∀ i, i < n → ∃ a, gather (List.range' 0 (matrixB.cols - 0)) (fun j =>
      (forLoop 0 matrixA.cols (fun k sum =>
          (matrixA.elements[uadd (umul i matrixA.rows) k]?).bind fun a =>
            (matrixB.elements[uadd (umul k matrixB.cols) j]?).bind fun b =>
              some (sum + a * b)) (0 : T)).map fun sum =>
        [(uadd (umul i matrixA.rows) j, sum)]) = some a := by
    intro i hi
    apply gather_isSome
    intro j hj
    rw [List.mem_range'_1, hBc] at hj
    exact ⟨_, cell i j hi (by omega)⟩
  unfold multiplyWrites
  obtain ⟨ws, hws⟩ := gather_isSome _ (List.range' 0 (matrixA.rows - 0)) (fun i hi => by
    rw [List.mem_range'_1, hAr] at hi
    exact inner i (by omega))
  refine ⟨ws, hws, fun p => ?_⟩
  rw [gather_mem _ _ ws hws p]
  constructor
  · rintro ⟨i, hi, a, ha, hp⟩
    rw [List.mem_range'_1, hAr] at hi
    rw [gather_mem _ _ a ha p] at hp
    obtain ⟨j, hj, b, hb, hpb⟩ := hp
    rw [List.mem_range'_1, hBc] at hj
    rw [cell i j (by omega) (by omega)] at hb
    cases hb
    rw [List.mem_singleton] at hpb
    exact ⟨i, j, by omega, by omega, hpb⟩
  · rintro ⟨i, j, hi, hj, hp⟩
    obtain ⟨a, ha⟩ := inner i hi
    refine ⟨i, List.mem_range'_1.2 (by rw [hAr]; omega), a, ha, ?_⟩
    rw [gather_mem _ _ a ha p]
    refine ⟨j, List.mem_range'_1.2 (by rw [hBc]; omega), _, cell i j hi hj, ?_⟩
    rw [hp]
    exact List.mem_singleton_self _

/-- The effect of `matrix_multiply_naive` on square `n x n` operands of any element type: the call succeeds and
`out[i*n + j]` holds the value accumulated in the element type. -/
theorem multiply_square_acc {T : Type} [Zero T] [Add T] [Mul T] (n : Nat)
    (outMatrix matrixA matrixB : matrix T)
    (hAr : matrixA.rows = n) (hAc : matrixA.cols = n) (hBc : matrixB.cols = n)
    (hA : matrixA.elements.length = n * n) (hB : matrixB.elements.length = n * n)
    (hO : n * n ≤ outMatrix.elements.length) (hn : n * n ≤ UINT_RANGE) :
    ∃ e, matrix_multiply_naive outMatrix matrixA matrixB
          = some { outMatrix with elements := e } ∧
      e.length = outMatrix.elements.length ∧
      ∀ i j, i < n → j < n →
        e[i * n + j]?
          = some (dotAcc matrixA.elements matrixB.elements n i j) := by
  obtain ⟨ws, hws, hmem⟩ := multiplyWrites_square_acc n matrixA matrixB hAr hAc hBc hA hB hn
  obtain ⟨e, he⟩ := writeAll_isSome ws outMatrix.elements (by
    intro p hp
    obtain ⟨i, j, hi, hj, rfl⟩ := (hmem p).1 hp
    exact lt_of_lt_of_le (sq_idx_lt hi hj) hO)
  refine ⟨e, ?_, writeAll_length ws _ e he, ?_⟩
  · rw [multiply_eq_writes, hws]
    simp [he]
  · intro i j hi hj
    apply writeAll_get _ _ ws _ e he ((hmem _).2 ⟨i, j, hi, hj, rfl⟩)
    intro p hp hpd
    obtain ⟨i2, j2, hi2, hj2, rfl⟩ := (hmem p).1 hp
    simp only at hpd
    obtain ⟨h1, h2⟩ := idx_inj (Nat.zero_le _) (by omega) (Nat.zero_le _) (by omega) hpd
    subst h1 h2
    rfl

theorem nat_sum_range (f : Nat → Nat) (n : Nat) :
    ((List.range n).map f).sum = ∑ k in Finset.range n, f k := by
  induction n with
  | zero => simp
  | succ n ih => rw [List.range_succ, List.map_append, List.sum_append, ih,
      Finset.sum_range_succ]; simp

theorem unsigned_fold (a b : Nat → CUnsigned) (ks : List Nat) :
    ∀ s : CUnsigned, s.val < UINT_RANGE →
      ks.foldl (fun sum k => sum + a k * b k) s
        = ⟨(s.val + (ks.map fun k => (a k).val * (b k).val).sum) % UINT_RANGE⟩ := by
  induction ks with
  | nil =>
    intro s hs
    cases s with
    | mk v => simp only [List.foldl_nil, List.map_nil, List.sum_nil, Nat.add_zero]
              rw [Nat.mod_eq_of_lt hs]
  | cons k ks ih =>
    intro s hs
    have hv : (s + a k * b k).val = uadd s.val (umul (a k).val (b k).val) := rfl
    have hlt : (s + a k * b k).val < UINT_RANGE := by
      rw [hv]
      exact Nat.mod_lt _ (by decide)
    rw [List.foldl_cons, ih _ hlt, hv]
    simp only [List.map_cons, List.sum_cons]
    congr 1
    unfold uadd umul UINT_RANGE
    omega

/-- On `unsigned int` elements the accumulated value is the sum of the products modulo
`2 ^ 32`. -/
theorem dotAcc_unsigned (A B : List CUnsigned) (n i j : Nat) :
    dotAcc A B n i j
      = ⟨(∑ k in Finset.range n, (A.getD (i * n + k) 0).val * (B.getD (k * n + j) 0).val)
          % UINT_RANGE⟩ := by
  unfold dotAcc
  rw [unsigned_fold (fun k => A.getD (i * n + k) 0) (fun k => B.getD (k * n + j) 0)
    (List.range n) 0 (by decide)]
  rw [nat_sum_range]
  congr 2
  exact Nat.zero_add _

/-! ## Helper lemmas for the multiplication and frame claims -/

theorem take_eq_of_entries (n : Nat) (e M : List Int) (hM : M.length = n * n)
    (he : n * n ≤ e.length)
    (h : ∀ i j, i < n → j < n → e[i * n + j]? = some (M.getD (i * n + j) 0)) :
    e.take (n * n) = M := by
  apply List.ext_getElem?
  intro k
  by_cases hk : k < n * n
  · have hnpos : 0 < n := by
      rcases Nat.eq_zero_or_pos n with h0 | h0
      · subst h0; omega
      · exact h0
    have hi : k / n < n := (Nat.div_lt_iff_lt_mul hnpos).2 hk
    have hj : k % n < n := Nat.mod_lt _ hnpos
    have hk2 : k / n * n + k % n = k := by
      rw [Nat.mul_comm]; exact Nat.div_add_mod k n
    have := h (k / n) (k % n) hi hj
    rw [hk2] at this
    rw [List.getElem?_take_of_lt hk, this, List.getD_eq_getElem?_getD,
      List.getElem?_eq_getElem (by omega)]
    rfl
  · rw [List.getElem?_eq_none (by rw [List.length_take]; omega),
      List.getElem?_eq_none (by omega)]

theorem identity_right_entry (n : Nat) (M I : List Int)
    (hId : ∀ k, k < n → ∀ j, j < n → I[k * n + j]? = some (if k = j then 1 else 0))
    (i j : Nat) (hj : j < n) :
    rowMajorProductEntry M I n n i j = M.getD (i * n + j) 0 := by
  unfold rowMajorProductEntry
  have h : ∀ k ∈ Finset.range n, M.getD (i * n + k) 0 * I.getD (k * n + j) 0
      = if k = j then M.getD (i * n + k) 0 else 0 := by
    intro k hk
    rw [Finset.mem_range] at hk
    have hI : I.getD (k * n + j) 0 = if k = j then 1 else 0 := by
      rw [List.getD_eq_getElem?_getD, hId k hk j hj]; rfl
    rw [hI]
    by_cases hkj : k = j <;> simp [hkj]
  rw [Finset.sum_congr rfl h, Finset.sum_ite_eq' (Finset.range n) j]
  simp [hj]

theorem identity_left_entry (n : Nat) (M I : List Int)
    (hId : ∀ k, k < n → ∀ j, j < n → I[k * n + j]? = some (if k = j then 1 else 0))
    (i j : Nat) (hi : i < n) :
    rowMajorProductEntry I M n n i j = M.getD (i * n + j) 0 := by
  unfold rowMajorProductEntry
  have h : ∀ k ∈ Finset.range n, I.getD (i * n + k) 0 * M.getD (k * n + j) 0
      = if k = i then M.getD (k * n + j) 0 else 0 := by
    intro k hk
    rw [Finset.mem_range] at hk
    have hI : I.getD (i * n + k) 0 = if i = k then 1 else 0 := by
      rw [List.getD_eq_getElem?_getD, hId i hi k hk]; rfl
    rw [hI]
    by_cases hkj : i = k
    · simp [hkj]
    · have : ¬ k = i := fun h => hkj h.symm
      simp [hkj, this]
  rw [Finset.sum_congr rfl h, Finset.sum_ite_eq' (Finset.range n) i]
  simp [hi]

theorem writeAll_isSome_iff {α : Type} (ws : List (Nat × α)) (buf : List α) :
    (writeAll ws buf).isSome = true ↔ ∀ p ∈ ws, p.1 < buf.length := by
  constructor
  · intro h
    obtain ⟨b, hb⟩ := Option.isSome_iff_exists.1 h
    exact writeAll_bounds ws buf b hb
  · intro h
    obtain ⟨b, hb⟩ := writeAll_isSome ws buf h
    rw [hb]
    rfl

theorem multiply_some_inv (outMatrix matrixA matrixB r : matrix Int)
    (h : matrix_multiply_naive outMatrix matrixA matrixB = some r) :
    ∃ ws, multiplyWrites matrixA matrixB = some ws ∧
      writeAll ws outMatrix.elements = some r.elements := by
  rw [multiply_eq_writes] at h
  simp only [Option.map_eq_some', Option.bind_eq_some] at h
  obtain ⟨e, ⟨ws, hws, he⟩, rfl⟩ := h
  exact ⟨ws, hws, he⟩

theorem multiplyWrites_addressed (matrixA matrixB : matrix Int) (ws : List (Nat × Int))
    (hws : multiplyWrites matrixA matrixB = some ws) (i j : Nat)
    (hi : i < matrixA.rows) (hj : j < matrixB.cols) :
    ∃ p ∈ ws, p.1 = uadd (umul i matrixA.rows) j := by
  unfold multiplyWrites at hws
  have hi2 : i ∈ List.range' 0 (matrixA.rows - 0) := List.mem_range'_1.2 (by omega)
  have hj2 : j ∈ List.range' 0 (matrixB.cols - 0) := List.mem_range'_1.2 (by omega)
  obtain ⟨a, ha⟩ := gather_some_inv _ _ ws hws i hi2
  obtain ⟨b, hb⟩ := gather_some_inv _ _ a ha j hj2
  have hb2 := hb
  simp only [Option.map_eq_some'] at hb2
  obtain ⟨v, _, hv⟩ := hb2
  refine ⟨(uadd (umul i matrixA.rows) j, v), ?_, rfl⟩
  rw [gather_mem _ _ ws hws]
  refine ⟨i, hi2, a, ha, ?_⟩
  rw [gather_mem _ _ a ha]
  exact ⟨j, hj2, b, hb, by rw [← hv]; exact List.mem_singleton_self _⟩

theorem naive_some_inv {α : Type} (inMatrix outMatrix : matrix α)
    (rows cols ro co m : Nat) (r : matrix α × matrix α)
    (h : matrix_transpose_naive inMatrix outMatrix rows cols ro co m = some r) :
    ∃ ws, naiveWrites inMatrix.elements rows cols ro co = some ws ∧
      writeAll ws outMatrix.elements = some r.2.elements ∧
      r = (inMatrix, { outMatrix with elements := r.2.elements }) := by
  rw [naive_eq_writes] at h
  simp only [Option.map_eq_some', Option.bind_eq_some] at h
  obtain ⟨e, ⟨ws, hws, he⟩, rfl⟩ := h
  exact ⟨ws, hws, he, rfl⟩

theorem naiveWrites_positions {α : Type} (inE : List α) (rows cols ro co : Nat)
    (ws : List (Nat × α)) (hws : naiveWrites inE rows cols ro co = some ws) :
    ∀ p ∈ ws, ∃ i j, (ro ≤ i ∧ i < ro + rows ∧ co ≤ j ∧ j < co + cols) ∧
      p.1 = uadd (umul j rows) i := by
  intro p hp
  unfold naiveWrites at hws
  rw [gather_mem _ _ ws hws] at hp
  obtain ⟨i, hi, a, ha, hpa⟩ := hp
  rw [gather_mem _ _ a ha] at hpa
  obtain ⟨j, hj, b, hb, hpb⟩ := hpa
  rw [List.mem_range'_1] at hi hj
  simp only [Option.map_eq_some'] at hb
  obtain ⟨v, _, rfl⟩ := hb
  rw [List.mem_singleton] at hpb
  have h1 : uadd ro rows ≤ ro + rows := Nat.mod_le _ _
  have h2 : uadd co cols ≤ co + cols := Nat.mod_le _ _
  refine ⟨i, j, ⟨hi.1, by omega, hj.1, by omega⟩, by rw [hpb]⟩

/-! ## Claims about the two transposes -/

/-- C1 (defect in the code): on the `2 x 2` matrix `[[1,2],[3,4]]` with `minSubMatrixSize = 1`
and an output buffer of zeros, `matrix_transpose_co` over the full extent leaves `[1,2,3,0]` in
the output buffer, whereas `matrix_transpose_naive` with the same arguments leaves the
transpose `[1,3,2,4]`: the two output buffers differ. -/
theorem co_differs_from_naive_2x2 :
    matrix_transpose_co ⟨2, 2, [1, 2, 3, 4]⟩ ⟨2, 2, [0, 0, 0, 0]⟩ 2 2 0 0 1
      = some (⟨2, 2, [1, 2, 3, 4]⟩, ⟨2, 2, [1, 2, 3, 0]⟩) ∧
    matrix_transpose_naive ⟨2, 2, [1, 2, 3, 4]⟩ ⟨2, 2, [0, 0, 0, 0]⟩ 2 2 0 0 1
      = some (⟨2, 2, [1, 2, 3, 4]⟩, ⟨2, 2, [1, 3, 2, 4]⟩) := by
  constructor
  · simp [matrix_transpose_co]
    decide
  · decide

/-- C2 (counterexample): for the `2 x 3` input `[[1,2,3],[4,5,6]]`, a `3 x 2` output and the
full region, every access is in bounds and `matrix_transpose_naive` leaves `[1,3,2,4,3,5]`;
with elements addressed by the allocated column counts (3 for the input, 2 for the output)
the output element (0,1) is 3 while the input element (1,0) is 4. -/
theorem naive_allocated_stride_counterexample :
    matrix_transpose_naive ⟨2, 3, [1, 2, 3, 4, 5, 6]⟩ ⟨3, 2, [0, 0, 0, 0, 0, 0]⟩ 2 3 0 0 0
      = some (⟨2, 3, [1, 2, 3, 4, 5, 6]⟩, ⟨3, 2, [1, 3, 2, 4, 3, 5]⟩) ∧
    ¬ ∃ r, matrix_transpose_naive ⟨2, 3, [1, 2, 3, 4, 5, 6]⟩ ⟨3, 2, [0, 0, 0, 0, 0, 0]⟩
          2 3 0 0 0 = some r ∧
        ∀ i j, 0 ≤ i → i < 0 + 2 → 0 ≤ j → j < 0 + 3 →
          r.2.elements[j * r.2.cols + i]?
            = (⟨2, 3, [1, 2, 3, 4, 5, 6]⟩ : matrix Nat).elements[i * 3 + j]? := by
  have h : matrix_transpose_naive ⟨2, 3, [1, 2, 3, 4, 5, 6]⟩ ⟨3, 2, [0, 0, 0, 0, 0, 0]⟩
      2 3 0 0 0 = some (⟨2, 3, [1, 2, 3, 4, 5, 6]⟩, ⟨3, 2, [1, 3, 2, 4, 3, 5]⟩) := by decide
  refine ⟨h, ?_⟩
  rintro ⟨r, hr, hall⟩
  rw [h] at hr
  cases hr
  have := hall 1 0 (by decide) (by decide) (by decide) (by decide)
  revert this
  decide

/-- C2 (as amended): when the allocated column count of both matrices equals the `rows`
argument, no index computation overflows and every index of the region is inside its buffer,
`matrix_transpose_naive` succeeds and afterwards the output element at (row j, column i)
equals the input element at (row i, column j) for every cell (i,j) of the region, element
(r,c) of a matrix being the buffer entry at index `r * cols + c`. -/
theorem naive_transposes_region_when_stride_is_rows {α : Type}
    (inMatrix outMatrix : matrix α) (rows cols rowOffset colOffset m : Nat)
    (hic : inMatrix.cols = rows) (hoc : outMatrix.cols = rows)
    (hro : rowOffset + rows < UINT_RANGE) (hco : colOffset + cols < UINT_RANGE)
    (hin : ∀ i j, rowOffset ≤ i → i < rowOffset + rows → colOffset ≤ j →
      j < colOffset + cols → i * inMatrix.cols + j < inMatrix.elements.length)
    (hout : ∀ i j, rowOffset ≤ i → i < rowOffset + rows → colOffset ≤ j →
      j < colOffset + cols → j * outMatrix.cols + i < outMatrix.elements.length)
    (hinU : inMatrix.elements.length ≤ UINT_RANGE)
    (houtU : outMatrix.elements.length ≤ UINT_RANGE) :
    ∃ r, matrix_transpose_naive inMatrix outMatrix rows cols rowOffset colOffset m = some r ∧
      ∀ i j, rowOffset ≤ i → i < rowOffset + rows → colOffset ≤ j → j < colOffset + cols →
        r.2.elements[j * r.2.cols + i]? = inMatrix.elements[i * inMatrix.cols + j]? := by
  rw [hic] at hin
  rw [hoc] at hout
  obtain ⟨e, he, _, hget, _⟩ :=
    naive_spec inMatrix outMatrix rows cols rowOffset colOffset m hro hco hin hout hinU houtU
  refine ⟨_, he, fun i j h1 h2 h3 h4 => ?_⟩
  simp only [hic, hoc]
  exact hget i j h1 h2 h3 h4

/-- Witness for the amended C2: rows 1..2 and columns 0..1 of a buffer of two columns. -/
theorem naive_transposes_region_when_stride_is_rows_witness :
    ∃ r, matrix_transpose_naive ⟨3, 2, [1, 2, 3, 4, 5, 6]⟩ ⟨3, 2, [0, 0, 0, 0, 0, 0]⟩
        2 2 1 0 0 = some r ∧
      ∀ i j, 1 ≤ i → i < 1 + 2 → 0 ≤ j → j < 0 + 2 →
        r.2.elements[j * r.2.cols + i]?
          = (⟨3, 2, [1, 2, 3, 4, 5, 6]⟩ : matrix Nat).elements[
              i * (⟨3, 2, [1, 2, 3, 4, 5, 6]⟩ : matrix Nat).cols + j]? :=
  naive_transposes_region_when_stride_is_rows ⟨3, 2, [1, 2, 3, 4, 5, 6]⟩
    ⟨3, 2, [0, 0, 0, 0, 0, 0]⟩ 2 2 1 0 0 rfl rfl (by decide) (by decide)
    (fun i j _ h2 _ h4 => by simp only [List.length_cons, List.length_nil]; omega)
    (fun i j _ h2 _ h4 => by simp only [List.length_cons, List.length_nil]; omega)
    (by decide) (by decide)

/-- C3: for every `n` with `n * n ≤ 2 ^ 32` (the buffers are addressable with `unsigned int`
indices) and all input and output buffers of `n * n` entries, `matrix_transpose_naive` over
the full extent (`rows = cols = n`, offsets 0) succeeds, leaves the input as it was and yields
the transpose: `out[j*n + i] = in[i*n + j]` for all `i, j < n`. -/
theorem naive_transposes_square {α : Type} (n m : Nat) (inMatrix outMatrix : matrix α)
    (hin : inMatrix.elements.length = n * n) (hout : outMatrix.elements.length = n * n)
    (hn : n * n ≤ UINT_RANGE) :
    ∃ e, matrix_transpose_naive inMatrix outMatrix n n 0 0 m
          = some (inMatrix, { outMatrix with elements := e }) ∧
      e.length = n * n ∧
      ∀ i j, i < n → j < n → e[j * n + i]? = inMatrix.elements[i * n + j]? :=
  naive_square n m inMatrix outMatrix hin hout hn

/-- Witness for C3 on a `3 x 3` matrix. -/
theorem naive_transposes_square_witness :
    ∃ e, matrix_transpose_naive ⟨3, 3, [1, 2, 3, 4, 5, 6, 7, 8, 9]⟩
            ⟨3, 3, [0, 0, 0, 0, 0, 0, 0, 0, 0]⟩ 3 3 0 0 0
          = some (⟨3, 3, [1, 2, 3, 4, 5, 6, 7, 8, 9]⟩,
              { (⟨3, 3, [0, 0, 0, 0, 0, 0, 0, 0, 0]⟩ : matrix Nat) with elements := e }) ∧
      e.length = 3 * 3 ∧
      ∀ i j, i < 3 → j < 3 →
        e[j * 3 + i]? = (⟨3, 3, [1, 2, 3, 4, 5, 6, 7, 8, 9]⟩ : matrix Nat).elements[i * 3 + j]? :=
  naive_transposes_square 3 0 ⟨3, 3, [1, 2, 3, 4, 5, 6, 7, 8, 9]⟩
    ⟨3, 3, [0, 0, 0, 0, 0, 0, 0, 0, 0]⟩ rfl rfl (by decide)

/-- C4 (counterexample): transposing the `2 x 2` matrix `[[1,2],[3,4]]` twice with
`matrix_transpose_co` and `minSubMatrixSize = 1` (buffers of zeros) yields `[1,2,3,0]`, not
the original; and transposing the `2 x 3` matrix `[[1,2,3],[4,5,6]]` twice with
`matrix_transpose_naive` reads outside the `3 x 2` buffer in the second call. -/
theorem transpose_twice_counterexample :
    (transpose_twice_co ⟨2, 2, [1, 2, 3, 4]⟩ ⟨2, 2, [0, 0, 0, 0]⟩ ⟨2, 2, [0, 0, 0, 0]⟩ 2 2 1
        = some ⟨2, 2, [1, 2, 3, 0]⟩ ∧
      ([1, 2, 3, 0] : List Nat) ≠ [1, 2, 3, 4]) ∧
    (transpose_twice_naive ⟨2, 3, [1, 2, 3, 4, 5, 6]⟩ ⟨3, 2, [0, 0, 0, 0, 0, 0]⟩
        ⟨2, 3, [0, 0, 0, 0, 0, 0]⟩ 2 3 = none ∧
      ([1, 3, 2, 4, 3, 5] : List Nat)[uadd (umul 2 3) 0]? = none) := by
  refine ⟨⟨?_, by decide⟩, by decide, by decide⟩
  simp [transpose_twice_co, matrix_transpose_co]
  decide

/-- C4 (as amended): for every square `n x n` matrix `M` with `n * n ≤ 2 ^ 32` and buffers
`T`, `R` of `n * n` entries, transposing `M` into `T` and `T` into `R` over the full extent
with `matrix_transpose_naive` succeeds and leaves `R` element-wise equal to `M`; the same holds
for `matrix_transpose_co` whenever `minSubMatrixSize ≥ n`, where it performs no split. -/
theorem transpose_twice_square {α : Type} (n : Nat) (M T R : matrix α)
    (hM : M.elements.length = n * n) (hT : T.elements.length = n * n)
    (hR : R.elements.length = n * n) (hn : n * n ≤ UINT_RANGE) :
    (∃ r, transpose_twice_naive M T R n n = some r ∧ r.elements = M.elements) ∧
    (∀ minSubMatrixSize, n ≤ minSubMatrixSize →
      ∃ r, transpose_twice_co M T R n n minSubMatrixSize = some r ∧
        r.elements = M.elements) := by
  obtain ⟨t, r, h1, h2, hr⟩ := naive_twice_square n 0 0 M T R hM hT hR hn
  have key : transpose_twice_naive M T R n n = some { R with elements := r } := by
    unfold transpose_twice_naive
    rw [h1]
    simp only [Option.some_bind]
    rw [h2]
    rfl
  refine ⟨⟨_, key, hr⟩, fun minSubMatrixSize hmin => ⟨{ R with elements := r }, ?_, hr⟩⟩
  unfold transpose_twice_co
  rw [co_base M T n n 0 0 minSubMatrixSize hmin hmin, h1]
  simp only [Option.some_bind]
  rw [co_base _ R n n 0 0 minSubMatrixSize hmin hmin, h2]
  rfl

/-- Witness for the amended C4 on a `2 x 2` matrix. -/
theorem transpose_twice_square_witness :
    (∃ r, transpose_twice_naive ⟨2, 2, [1, 2, 3, 4]⟩ ⟨2, 2, [0, 0, 0, 0]⟩
        ⟨2, 2, [0, 0, 0, 0]⟩ 2 2 = some r ∧
      r.elements = (⟨2, 2, [1, 2, 3, 4]⟩ : matrix Nat).elements) ∧
    (∀ minSubMatrixSize, 2 ≤ minSubMatrixSize →
      ∃ r, transpose_twice_co ⟨2, 2, [1, 2, 3, 4]⟩ ⟨2, 2, [0, 0, 0, 0]⟩
          ⟨2, 2, [0, 0, 0, 0]⟩ 2 2 minSubMatrixSize = some r ∧
        r.elements = (⟨2, 2, [1, 2, 3, 4]⟩ : matrix Nat).elements) :=
  transpose_twice_square 2 ⟨2, 2, [1, 2, 3, 4]⟩ ⟨2, 2, [0, 0, 0, 0]⟩ ⟨2, 2, [0, 0, 0, 0]⟩
    rfl rfl rfl (by decide)

/-- C5: for every `rows ≥ 1`, `cols ≥ 1`, all offsets and every `minSubMatrixSize ≥ 1` the
recursion of `matrix_transpose_co` terminates: a recursion depth of `rows + cols + 1` (or
more) always suffices to reach the outcome of the call, and at every split the dimension
that is halved is strictly smaller in the recursive calls than in the caller (and both
dimensions of the recursive calls are again at least 1). -/
theorem co_terminates {α : Type} (inMatrix outMatrix : matrix α)
    (rows cols rowOffset colOffset minSubMatrixSize : Nat)
    (hr : 1 ≤ rows) (hc : 1 ≤ cols) (hm : 1 ≤ minSubMatrixSize) :
    (∀ fuel, rows + cols < fuel →
      matrix_transpose_co_fuel fuel inMatrix outMatrix rows cols rowOffset colOffset
          minSubMatrixSize
        = some (matrix_transpose_co inMatrix outMatrix rows cols rowOffset colOffset
            minSubMatrixSize)) ∧
    ((rows > minSubMatrixSize ∨ cols > minSubMatrixSize) →
      (cols ≥ rows → 1 ≤ rows ∧ 1 ≤ cols / 2 ∧ cols / 2 < cols) ∧
      (¬ cols ≥ rows → 1 ≤ rows / 2 ∧ rows / 2 < rows ∧ 1 ≤ cols)) := by
  refine ⟨fun fuel hf => co_fuel_eq fuel _ _ _ _ _ _ _ hf, fun hs => ⟨?_, ?_⟩⟩
  · intro _; omega
  · intro _; omega

/-- Witness for C5 on the shapes `1 x 1`, `1 x 4`, `4 x 1`, `5 x 5` and `7 x 3`. -/
theorem co_terminates_witness :
    (matrix_transpose_co_fuel 3 (⟨1, 1, [7]⟩ : matrix Nat) ⟨1, 1, [0]⟩ 1 1 0 0 1
        = some (matrix_transpose_co ⟨1, 1, [7]⟩ ⟨1, 1, [0]⟩ 1 1 0 0 1)) ∧
    (matrix_transpose_co_fuel 6 (⟨1, 4, [1, 2, 3, 4]⟩ : matrix Nat) ⟨4, 1, [0, 0, 0, 0]⟩
        1 4 0 0 1
        = some (matrix_transpose_co ⟨1, 4, [1, 2, 3, 4]⟩ ⟨4, 1, [0, 0, 0, 0]⟩ 1 4 0 0 1)) ∧
    (matrix_transpose_co_fuel 6 (⟨4, 1, [1, 2, 3, 4]⟩ : matrix Nat) ⟨1, 4, [0, 0, 0, 0]⟩
        4 1 0 0 1
        = some (matrix_transpose_co ⟨4, 1, [1, 2, 3, 4]⟩ ⟨1, 4, [0, 0, 0, 0]⟩ 4 1 0 0 1)) ∧
    (matrix_transpose_co_fuel 11 (⟨5, 5, []⟩ : matrix Nat) ⟨5, 5, []⟩ 5 5 0 0 2
        = some (matrix_transpose_co ⟨5, 5, []⟩ ⟨5, 5, []⟩ 5 5 0 0 2)) ∧
    (matrix_transpose_co_fuel 11 (⟨7, 3, []⟩ : matrix Nat) ⟨3, 7, []⟩ 7 3 0 0 1
        = some (matrix_transpose_co ⟨7, 3, []⟩ ⟨3, 7, []⟩ 7 3 0 0 1)) :=
  ⟨(co_terminates _ _ 1 1 0 0 1 (by decide) (by decide) (by decide)).1 3 (by decide),
   (co_terminates _ _ 1 4 0 0 1 (by decide) (by decide) (by decide)).1 6 (by decide),
   (co_terminates _ _ 4 1 0 0 1 (by decide) (by decide) (by decide)).1 6 (by decide),
   (co_terminates _ _ 5 5 0 0 2 (by decide) (by decide) (by decide)).1 11 (by decide),
   (co_terminates _ _ 7 3 0 0 1 (by decide) (by decide) (by decide)).1 11 (by decide)⟩

/-! ## Claims about the multiplication and the frame of the naive transpose -/

/-- C6 (defect in the code): for the `2 x 3` matrix `A = [[1,2,3],[4,5,6]]`, the `3 x 2` matrix
`B = [[1,0],[0,1],[1,1]]` and an output of capacity 4, every access is in bounds and
`matrix_multiply_naive` leaves `[4,5,8,9]`: the output element (1,0), at index `1*2 + 0`, is 8,
whereas the sum over `k < 3` of `A(1,k) * B(k,0)` is 10. -/
theorem multiply_rectangular_wrong_entry :
    matrix_multiply_naive (⟨2, 2, [0, 0, 0, 0]⟩ : matrix Int) ⟨2, 3, [1, 2, 3, 4, 5, 6]⟩
        ⟨3, 2, [1, 0, 0, 1, 1, 1]⟩ = some ⟨2, 2, [4, 5, 8, 9]⟩ ∧
    ([4, 5, 8, 9] : List Int)[1 * 2 + 0]? = some 8 ∧
    rowMajorProductEntry [1, 2, 3, 4, 5, 6] [1, 0, 0, 1, 1, 1] 3 2 1 0 = 10 := by
  refine ⟨by decide, by decide, ?_⟩
  simp [rowMajorProductEntry, Finset.sum_range_succ]

/-- C7 (counterexample): on `unsigned int` elements, for the `1 x 1` matrices `A = [65536]`
and `B = [65536]` every access is in bounds and `matrix_multiply_naive` leaves `out[0] = 0`,
whereas the sum over `k < 1` of `A[k] * B[k]` is `4294967296`. -/
theorem multiply_overflow_counterexample :
    matrix_multiply_naive (⟨1, 1, [⟨7⟩]⟩ : matrix CUnsigned) ⟨1, 1, [⟨65536⟩]⟩
        ⟨1, 1, [⟨65536⟩]⟩ = some ⟨1, 1, [⟨0⟩]⟩ ∧
    (∑ k in Finset.range 1, (([⟨65536⟩] : List CUnsigned).getD (0 * 1 + k) 0).val *
        (([⟨65536⟩] : List CUnsigned).getD (k * 1 + 0) 0).val) = 4294967296 ∧
    (0 : Nat) ≠ 4294967296 := by
  refine ⟨by decide, ?_, by decide⟩
  simp [Finset.sum_range_succ]

/-- C7 (as amended): for every `n` with `n * n ≤ 2 ^ 32` and every pair of square `n x n`
matrices `A` and `B` (buffers of `n * n` entries, output of capacity at least `n * n`),
`matrix_multiply_naive` succeeds and writes into `out[i*n + j]`, for all `i, j < n`, the sum
over `k < n` of `A[i*n + k] * B[k*n + j]` accumulated in the arithmetic of the element type;
for `unsigned int` elements this is the sum modulo `2 ^ 32`, hence the exact sum whenever it
is below `2 ^ 32`. In particular for `A = [[1,2],[3,4]]` and `B = [[5,6],[7,8]]` the output
is `[[19,22],[43,50]]`. -/
theorem multiply_square_entries_in_element_type (n : Nat) (hn : n * n ≤ UINT_RANGE) :
    (∀ (T : Type) [Zero T] [Add T] [Mul T] (outMatrix matrixA matrixB : matrix T),
      matrixA.rows = n → matrixA.cols = n → matrixB.cols = n →
      matrixA.elements.length = n * n → matrixB.elements.length = n * n →
      n * n ≤ outMatrix.elements.length →
      ∃ e, matrix_multiply_naive outMatrix matrixA matrixB
            = some { outMatrix with elements := e } ∧
        ∀ i j, i < n → j < n →
          e[i * n + j]? = some (dotAcc matrixA.elements matrixB.elements n i j)) ∧
    (∀ (outMatrix matrixA matrixB : matrix CUnsigned),
      matrixA.rows = n → matrixA.cols = n → matrixB.cols = n →
      matrixA.elements.length = n * n → matrixB.elements.length = n * n →
      n * n ≤ outMatrix.elements.length →
      ∃ e, matrix_multiply_naive outMatrix matrixA matrixB
            = some { outMatrix with elements := e } ∧
        ∀ i j, i < n → j < n →
          e[i * n + j]? = some ⟨(∑ k in Finset.range n,
            (matrixA.elements.getD (i * n + k) 0).val *
              (matrixB.elements.getD (k * n + j) 0).val) % UINT_RANGE⟩ ∧
          ((∑ k in Finset.range n, (matrixA.elements.getD (i * n + k) 0).val *
              (matrixB.elements.getD (k * n + j) 0).val) < UINT_RANGE →
            e[i * n + j]? = some ⟨∑ k in Finset.range n,
              (matrixA.elements.getD (i * n + k) 0).val *
                (matrixB.elements.getD (k * n + j) 0).val⟩)) ∧
    matrix_multiply_naive (⟨2, 2, [⟨0⟩, ⟨0⟩, ⟨0⟩, ⟨0⟩]⟩ : matrix CUnsigned)
        ⟨2, 2, [⟨1⟩, ⟨2⟩, ⟨3⟩, ⟨4⟩]⟩ ⟨2, 2, [⟨5⟩, ⟨6⟩, ⟨7⟩, ⟨8⟩]⟩
      = some ⟨2, 2, [⟨19⟩, ⟨22⟩, ⟨43⟩, ⟨50⟩]⟩ := by
  refine ⟨?_, ?_, by decide⟩
  · intro T _ _ _ outMatrix matrixA matrixB hAr hAc hBc hA hB hO
    obtain ⟨e, he, _, hget⟩ :=
      multiply_square_acc n outMatrix matrixA matrixB hAr hAc hBc hA hB hO hn
    exact ⟨e, he, hget⟩
  · intro outMatrix matrixA matrixB hAr hAc hBc hA hB hO
    obtain ⟨e, he, _, hget⟩ :=
      multiply_square_acc n outMatrix matrixA matrixB hAr hAc hBc hA hB hO hn
    refine ⟨e, he, fun i j hi hj => ?_⟩
    have h := hget i j hi hj
    rw [dotAcc_unsigned] at h
    refine ⟨h, fun hlt => ?_⟩
    rw [h, Nat.mod_eq_of_lt hlt]

/-- Witness for the amended C7: the matrices of the specification's example as
`unsigned int` matrices. -/
theorem multiply_square_entries_in_element_type_witness :
    ∃ e, matrix_multiply_naive (⟨2, 2, [⟨0⟩, ⟨0⟩, ⟨0⟩, ⟨0⟩]⟩ : matrix CUnsigned)
          ⟨2, 2, [⟨1⟩, ⟨2⟩, ⟨3⟩, ⟨4⟩]⟩ ⟨2, 2, [⟨5⟩, ⟨6⟩, ⟨7⟩, ⟨8⟩]⟩
        = some { (⟨2, 2, [⟨0⟩, ⟨0⟩, ⟨0⟩, ⟨0⟩]⟩ : matrix CUnsigned) with elements := e } ∧
      ∀ i j, i < 2 → j < 2 →
        e[i * 2 + j]? = some ⟨(∑ k in Finset.range 2,
          ((⟨2, 2, [⟨1⟩, ⟨2⟩, ⟨3⟩, ⟨4⟩]⟩ : matrix CUnsigned).elements.getD (i * 2 + k) 0).val *
            ((⟨2, 2, [⟨5⟩, ⟨6⟩, ⟨7⟩, ⟨8⟩]⟩ : matrix CUnsigned).elements.getD
              (k * 2 + j) 0).val) % UINT_RANGE⟩ ∧
        ((∑ k in Finset.range 2,
          ((⟨2, 2, [⟨1⟩, ⟨2⟩, ⟨3⟩, ⟨4⟩]⟩ : matrix CUnsigned).elements.getD (i * 2 + k) 0).val *
            ((⟨2, 2, [⟨5⟩, ⟨6⟩, ⟨7⟩, ⟨8⟩]⟩ : matrix CUnsigned).elements.getD
              (k * 2 + j) 0).val) < UINT_RANGE →
          e[i * 2 + j]? = some ⟨∑ k in Finset.range 2,
            ((⟨2, 2, [⟨1⟩, ⟨2⟩, ⟨3⟩, ⟨4⟩]⟩ : matrix CUnsigned).elements.getD
              (i * 2 + k) 0).val *
              ((⟨2, 2, [⟨5⟩, ⟨6⟩, ⟨7⟩, ⟨8⟩]⟩ : matrix CUnsigned).elements.getD
                (k * 2 + j) 0).val⟩) :=
  (multiply_square_entries_in_element_type 2 (by decide)).2.1
    ⟨2, 2, [⟨0⟩, ⟨0⟩, ⟨0⟩, ⟨0⟩]⟩ ⟨2, 2, [⟨1⟩, ⟨2⟩, ⟨3⟩, ⟨4⟩]⟩ ⟨2, 2, [⟨5⟩, ⟨6⟩, ⟨7⟩, ⟨8⟩]⟩
    rfl rfl rfl rfl rfl (by decide)

/-- C8: for every `n` with `n * n ≤ 2 ^ 32`, every `n x n` integer matrix `M` and the `n x n`
identity matrix `I` (1 on the diagonal, 0 elsewhere), both
`matrix_multiply_naive(out, M, I)` and `matrix_multiply_naive(out, I, M)` succeed and leave
the first `n * n` elements of `out` equal to the elements of `M`. -/
theorem multiply_identity (n : Nat) (outMatrix M I : matrix Int)
    (hMr : M.rows = n) (hMc : M.cols = n) (hIr : I.rows = n) (hIc : I.cols = n)
    (hM : M.elements.length = n * n) (hI : I.elements.length = n * n)
    (hId : ∀ k, k < n → ∀ j, j < n → I.elements[k * n + j]? = some (if k = j then 1 else 0))
    (hO : n * n ≤ outMatrix.elements.length) (hn : n * n ≤ UINT_RANGE) :
    (∃ e, matrix_multiply_naive outMatrix M I = some { outMatrix with elements := e } ∧
      e.take (n * n) = M.elements) ∧
    (∃ e, matrix_multiply_naive outMatrix I M = some { outMatrix with elements := e } ∧
      e.take (n * n) = M.elements) := by
  constructor
  · obtain ⟨e, he, hlen, hget⟩ := multiply_square n outMatrix M I hMr hMc hIc hM hI hO hn
    refine ⟨e, he, take_eq_of_entries n e M.elements hM (by omega) fun i j hi hj => ?_⟩
    rw [hget i j hi hj, identity_right_entry n M.elements I.elements hId i j hj]
  · obtain ⟨e, he, hlen, hget⟩ := multiply_square n outMatrix I M hIr hIc hMc hI hM hO hn
    refine ⟨e, he, take_eq_of_entries n e M.elements hM (by omega) fun i j hi hj => ?_⟩
    rw [hget i j hi hj, identity_left_entry n M.elements I.elements hId i j hi]

/-- Witness for C8: a `2 x 2` matrix, the `2 x 2` identity and an output of capacity 5. -/
theorem multiply_identity_witness :
    (∃ e, matrix_multiply_naive ⟨2, 2, [7, 7, 7, 7, 7]⟩ ⟨2, 2, [1, 2, 3, 4]⟩
          ⟨2, 2, [1, 0, 0, 1]⟩
        = some { (⟨2, 2, [7, 7, 7, 7, 7]⟩ : matrix Int) with elements := e } ∧
      e.take (2 * 2) = (⟨2, 2, [1, 2, 3, 4]⟩ : matrix Int).elements) ∧
    (∃ e, matrix_multiply_naive ⟨2, 2, [7, 7, 7, 7, 7]⟩ ⟨2, 2, [1, 0, 0, 1]⟩
          ⟨2, 2, [1, 2, 3, 4]⟩
        = some { (⟨2, 2, [7, 7, 7, 7, 7]⟩ : matrix Int) with elements := e } ∧
      e.take (2 * 2) = (⟨2, 2, [1, 2, 3, 4]⟩ : matrix Int).elements) :=
  multiply_identity 2 ⟨2, 2, [7, 7, 7, 7, 7]⟩ ⟨2, 2, [1, 2, 3, 4]⟩ ⟨2, 2, [1, 0, 0, 1]⟩
    rfl rfl rfl rfl rfl rfl (by decide) (by decide) (by decide)

/-- C9: `matrix_multiply_naive` does not depend on the prior contents of the output. For all
`A`, `B` and two initial outputs of the same length, one run succeeds exactly when the other
does, and after two successful runs every addressed output index (the index written for some
`i < A.rows`, `j < B.cols`) holds the same value in both results, namely the last value
assigned to it in the list of assignments computed from `A` and `B` alone. -/
theorem multiply_ignores_prior_output (out1 out2 matrixA matrixB : matrix Int)
    (hlen : out1.elements.length = out2.elements.length) :
    (matrix_multiply_naive out1 matrixA matrixB).isSome
        = (matrix_multiply_naive out2 matrixA matrixB).isSome ∧
    ∀ r1 r2, matrix_multiply_naive out1 matrixA matrixB = some r1 →
      matrix_multiply_naive out2 matrixA matrixB = some r2 →
      ∃ ws, multiplyWrites matrixA matrixB = some ws ∧
        ∀ i j, i < matrixA.rows → j < matrixB.cols →
          r1.elements[uadd (umul i matrixA.rows) j]?
              = r2.elements[uadd (umul i matrixA.rows) j]? ∧
          r1.elements[uadd (umul i matrixA.rows) j]?
              = lastWrite ws (uadd (umul i matrixA.rows) j) ∧
          (lastWrite ws (uadd (umul i matrixA.rows) j)).isSome = true := by
  constructor
  · rw [multiply_eq_writes, multiply_eq_writes]
    cases multiplyWrites matrixA matrixB with
    | none => rfl
    | some ws =>
      simp only [Option.some_bind, Option.isSome_map']
      rw [Bool.eq_iff_iff, writeAll_isSome_iff, writeAll_isSome_iff, hlen]
  · intro r1 r2 h1 h2
    obtain ⟨ws, hws, hw1⟩ := multiply_some_inv out1 matrixA matrixB r1 h1
    obtain ⟨ws2, hws2, hw2⟩ := multiply_some_inv out2 matrixA matrixB r2 h2
    rw [hws] at hws2
    cases hws2
    refine ⟨ws, hws, fun i j hi hj => ?_⟩
    have hp := multiplyWrites_addressed matrixA matrixB ws hws i j hi hj
    have e1 := writeAll_lastWrite _ ws _ _ hw1 hp
    have e2 := writeAll_lastWrite _ ws _ _ hw2 hp
    refine ⟨by rw [e1, e2], e1, ?_⟩
    rw [← e1]
    obtain ⟨p, hpm, hpd⟩ := hp
    have hb := writeAll_bounds ws _ _ hw1 p hpm
    rw [hpd] at hb
    rw [List.getElem?_eq_getElem (by rw [writeAll_length ws _ _ hw1]; exact hb)]
    rfl

/-- Witness for C9: the same `2 x 2` product started from two different output buffers. -/
theorem multiply_ignores_prior_output_witness :
    ∃ ws, multiplyWrites ⟨2, 2, [1, 2, 3, 4]⟩ ⟨2, 2, [5, 6, 7, 8]⟩ = some ws ∧
      ∀ i j, i < 2 → j < 2 →
        ([19, 22, 43, 50] : List Int)[uadd (umul i 2) j]?
            = ([19, 22, 43, 50] : List Int)[uadd (umul i 2) j]? ∧
        ([19, 22, 43, 50] : List Int)[uadd (umul i 2) j]?
            = lastWrite ws (uadd (umul i 2) j) ∧
        (lastWrite ws (uadd (umul i 2) j)).isSome = true :=
  (multiply_ignores_prior_output ⟨2, 2, [0, 0, 0, 0]⟩ ⟨2, 2, [9, 9, 9, 9]⟩
    ⟨2, 2, [1, 2, 3, 4]⟩ ⟨2, 2, [5, 6, 7, 8]⟩ rfl).2
    ⟨2, 2, [19, 22, 43, 50]⟩ ⟨2, 2, [19, 22, 43, 50]⟩ (by decide) (by decide)

/-- C10 (counterexample): for a `2 x 2` input, a `2 x 3` output buffer `[9,9,9,9,9,9]` and
the full region of the input, every access is in bounds and `matrix_transpose_naive` leaves
`[1,3,2,4,9,9]`: the output entry at index 2 changes from 9 to 2 although 2 is not the
position `j*3 + i` of output(j,i) for any cell (i,j) of the region. -/
theorem naive_frame_counterexample :
    matrix_transpose_naive ⟨2, 2, [1, 2, 3, 4]⟩ ⟨2, 3, [9, 9, 9, 9, 9, 9]⟩ 2 2 0 0 0
      = some (⟨2, 2, [1, 2, 3, 4]⟩, ⟨2, 3, [1, 3, 2, 4, 9, 9]⟩) ∧
    ¬ ∃ r, matrix_transpose_naive ⟨2, 2, [1, 2, 3, 4]⟩ ⟨2, 3, [9, 9, 9, 9, 9, 9]⟩
          2 2 0 0 0 = some r ∧
        ∀ k : Nat, (∀ i j, 0 ≤ i → i < 0 + 2 → 0 ≤ j → j < 0 + 2 →
            k ≠ j * (⟨2, 3, [9, 9, 9, 9, 9, 9]⟩ : matrix Nat).cols + i) →
          r.2.elements[k]? = (⟨2, 3, [9, 9, 9, 9, 9, 9]⟩ : matrix Nat).elements[k]? := by
  have h : matrix_transpose_naive ⟨2, 2, [1, 2, 3, 4]⟩ ⟨2, 3, [9, 9, 9, 9, 9, 9]⟩ 2 2 0 0 0
      = some (⟨2, 2, [1, 2, 3, 4]⟩, ⟨2, 3, [1, 3, 2, 4, 9, 9]⟩) := by decide
  refine ⟨h, ?_⟩
  rintro ⟨r, hr, hall⟩
  rw [h] at hr
  cases hr
  have := hall 2 (by
    intro i j _ hi _ hj
    simp only
    omega)
  revert this
  decide

/-- C10 (as amended): the only effect of `matrix_transpose_naive` is the write into the
output buffer. Whenever a call returns (disjoint buffers, every access in bounds), the input
matrix is unchanged and the `rows`/`cols` fields of the output matrix and the length of its
buffer are unchanged; and when the allocated column count of the output equals the `rows`
argument and the positions of the region are inside the output buffer (of at most `2 ^ 32`
entries), every output entry whose index is not a written position (the position
`j * cols + i` of output(j,i), `cols` the output's column count, for some (i,j) in the
region) keeps its prior value. The call does return when moreover no index computation
overflows and every read is inside the input buffer. -/
theorem naive_only_writes_output_positions {α : Type} (inMatrix outMatrix : matrix α)
    (rows cols rowOffset colOffset m : Nat) :
    (∀ r, matrix_transpose_naive inMatrix outMatrix rows cols rowOffset colOffset m = some r →
      r.1 = inMatrix ∧ r.2.rows = outMatrix.rows ∧ r.2.cols = outMatrix.cols ∧
      r.2.elements.length = outMatrix.elements.length ∧
      (outMatrix.cols = rows →
        (∀ i j, rowOffset ≤ i → i < rowOffset + rows → colOffset ≤ j →
          j < colOffset + cols → j * outMatrix.cols + i < outMatrix.elements.length) →
        outMatrix.elements.length ≤ UINT_RANGE →
        ∀ k : Nat, (∀ i j, rowOffset ≤ i → i < rowOffset + rows → colOffset ≤ j →
            j < colOffset + cols → k ≠ j * outMatrix.cols + i) →
          r.2.elements[k]? = outMatrix.elements[k]?)) ∧
    (outMatrix.cols = rows →
      rowOffset + rows < UINT_RANGE → colOffset + cols < UINT_RANGE →
      (∀ i j, rowOffset ≤ i → i < rowOffset + rows → colOffset ≤ j → j < colOffset + cols →
        i * rows + j < inMatrix.elements.length) →
      (∀ i j, rowOffset ≤ i → i < rowOffset + rows → colOffset ≤ j → j < colOffset + cols →
        j * outMatrix.cols + i < outMatrix.elements.length) →
      inMatrix.elements.length ≤ UINT_RANGE → outMatrix.elements.length ≤ UINT_RANGE →
      ∃ r, matrix_transpose_naive inMatrix outMatrix rows cols rowOffset colOffset m
        = some r) := by
  constructor
  · intro r hr
    obtain ⟨ws, hws, hw, hreq⟩ :=
      naive_some_inv inMatrix outMatrix rows cols rowOffset colOffset m r hr
    refine ⟨by rw [hreq], by rw [hreq], by rw [hreq], writeAll_length ws _ _ hw, ?_⟩
    intro hoc hout houtU k hk
    apply writeAll_frame k ws _ _ hw
    intro p hp hpk
    obtain ⟨i, j, ⟨h1, h2, h3, h4⟩, hd⟩ :=
      naiveWrites_positions inMatrix.elements rows cols rowOffset colOffset ws hws p hp
    have hlt := hout i j h1 h2 h3 h4
    rw [hoc] at hlt
    have e : uadd (umul j rows) i = j * rows + i := uidx_eq (by omega)
    apply hk i j h1 h2 h3 h4
    rw [← hpk, hd, e, hoc]
  · intro hoc hro hco hin hout hinU houtU
    rw [hoc] at hout
    obtain ⟨e, he, _⟩ := naive_spec inMatrix outMatrix rows cols rowOffset colOffset m
      hro hco hin hout hinU houtU
    exact ⟨_, he⟩

/-- Witness for the amended C10: rows 1..2 and columns 0..1 of a buffer of two columns
written into a buffer of two columns; the entries at the indices 0 and 5 keep their value. -/
theorem naive_only_writes_output_positions_witness :
    ∀ k : Nat, (∀ i j, 1 ≤ i → i < 1 + 2 → 0 ≤ j → j < 0 + 2 →
        k ≠ j * (⟨3, 2, [9, 9, 9, 9, 9, 9]⟩ : matrix Nat).cols + i) →
      ([9, 3, 5, 4, 6, 9] : List Nat)[k]?
        = (⟨3, 2, [9, 9, 9, 9, 9, 9]⟩ : matrix Nat).elements[k]? :=
  ((naive_only_writes_output_positions ⟨3, 2, [1, 2, 3, 4, 5, 6]⟩
      ⟨3, 2, [9, 9, 9, 9, 9, 9]⟩ 2 2 1 0 0).1
    (⟨3, 2, [1, 2, 3, 4, 5, 6]⟩, ⟨3, 2, [9, 3, 5, 4, 6, 9]⟩) (by decide)).2.2.2.2 rfl
    (fun i j _ h2 _ h4 => by simp only [List.length_cons, List.length_nil]; omega)
    (by decide)

/-! ## The recursion of `matrix_transpose_co` and its base-case regions -/

/-- Induction along the recursion of `matrix_transpose_co`. -/
theorem co_induct (minSubMatrixSize : Nat) (P : Nat → Nat → Nat → Nat → Prop)
    (base : ∀ rows cols ro co, ¬ (rows > minSubMatrixSize ∨ cols > minSubMatrixSize) →
      P rows cols ro co)
    (splitCols : ∀ rows cols ro co, (rows > minSubMatrixSize ∨ cols > minSubMatrixSize) →
      cols ≥ rows → P rows (cols / 2) ro co → P rows (cols / 2) ro (uadd co (cols / 2)) →
      P rows cols ro co)
    (splitRows : ∀ rows cols ro co, (rows > minSubMatrixSize ∨ cols > minSubMatrixSize) →
      ¬ cols ≥ rows → P (rows / 2) cols ro co → P (rows / 2) cols (uadd ro (rows / 2)) co →
      P rows cols ro co) :
    ∀ rows cols ro co, P rows cols ro co := by
  have key : ∀ n rows cols ro co, rows + cols ≤ n → P rows cols ro co := by
    intro n
    induction n with
    | zero =>
      intro rows cols ro co h
      exact base rows cols ro co (by omega)
    | succ n ih =>
      intro rows cols ro co h
      by_cases hs : rows > minSubMatrixSize ∨ cols > minSubMatrixSize
      · by_cases hc : cols ≥ rows
        · exact splitCols rows cols ro co hs hc (ih _ _ _ _ (by omega)) (ih _ _ _ _ (by omega))
        · exact splitRows rows cols ro co hs hc (ih _ _ _ _ (by omega)) (ih _ _ _ _ (by omega))
      · exact base rows cols ro co hs
  intro rows cols ro co
  exact key (rows + cols) rows cols ro co (Nat.le_refl _)

theorem coRegions_base (rows cols ro co minSubMatrixSize : Nat)
    (h : ¬ (rows > minSubMatrixSize ∨ cols > minSubMatrixSize)) :
    coRegions rows cols ro co minSubMatrixSize = [⟨rows, cols, ro, co⟩] := by
  rw [coRegions]
  simp only [h, if_false]

theorem coRegions_splitCols (rows cols ro co minSubMatrixSize : Nat)
    (h : rows > minSubMatrixSize ∨ cols > minSubMatrixSize) (hc : cols ≥ rows) :
    coRegions rows cols ro co minSubMatrixSize
      = coRegions rows (cols / 2) ro co minSubMatrixSize ++
        coRegions rows (cols / 2) ro (uadd co (cols / 2)) minSubMatrixSize := by
  rw [coRegions]
  simp only [h, hc, if_true]

theorem coRegions_splitRows (rows cols ro co minSubMatrixSize : Nat)
    (h : rows > minSubMatrixSize ∨ cols > minSubMatrixSize) (hc : ¬ cols ≥ rows) :
    coRegions rows cols ro co minSubMatrixSize
      = coRegions (rows / 2) cols ro co minSubMatrixSize ++
        coRegions (rows / 2) cols (uadd ro (rows / 2)) co minSubMatrixSize := by
  rw [coRegions]
  simp only [h, hc, if_true, if_false]

theorem naiveOnRegions_append {α : Type} (inMatrix outMatrix : matrix α)
    (xs ys : List Region) :
    naiveOnRegions inMatrix outMatrix (xs ++ ys)
      = (naiveOnRegions inMatrix outMatrix xs).bind fun m => naiveOnRegions m.1 m.2 ys := by
  unfold naiveOnRegions
  rw [List.foldlM_append]
  rfl

/-- A call of `matrix_transpose_co` is the sequence of calls of `matrix_transpose_naive` on
its base-case regions. -/
theorem co_eq_regions {α : Type} (minSubMatrixSize : Nat) :
    ∀ (rows cols ro co : Nat) (inMatrix outMatrix : matrix α),
      matrix_transpose_co inMatrix outMatrix rows cols ro co minSubMatrixSize
        = naiveOnRegions inMatrix outMatrix
            (coRegions rows cols ro co minSubMatrixSize) := by
  apply co_induct minSubMatrixSize
    (fun rows cols ro co => ∀ (inMatrix outMatrix : matrix α),
      matrix_transpose_co inMatrix outMatrix rows cols ro co minSubMatrixSize
        = naiveOnRegions inMatrix outMatrix (coRegions rows cols ro co minSubMatrixSize))
  · intro rows cols ro co h inMatrix outMatrix
    rw [coRegions_base _ _ _ _ _ h, matrix_transpose_co]
    simp only [h, if_false]
    simp [naiveOnRegions]
  · intro rows cols ro co h hc ih1 ih2 inMatrix outMatrix
    rw [coRegions_splitCols _ _ _ _ _ h hc, naiveOnRegions_append, matrix_transpose_co]
    simp only [h, hc, if_true]
    rw [ih1]
    congr 1
    funext m
    exact ih2 m.1 m.2
  · intro rows cols ro co h hc ih1 ih2 inMatrix outMatrix
    rw [coRegions_splitRows _ _ _ _ _ h hc, naiveOnRegions_append, matrix_transpose_co]
    simp only [h, hc, if_true, if_false]
    rw [ih1]
    congr 1
    funext m
    exact ih2 m.1 m.2

theorem coRegions_small (minSubMatrixSize : Nat) :
    ∀ rows cols ro co, ∀ reg ∈ coRegions rows cols ro co minSubMatrixSize,
      reg.rows ≤ minSubMatrixSize ∧ reg.cols ≤ minSubMatrixSize := by
  apply co_induct minSubMatrixSize
    (fun rows cols ro co => ∀ reg ∈ coRegions rows cols ro co minSubMatrixSize,
      reg.rows ≤ minSubMatrixSize ∧ reg.cols ≤ minSubMatrixSize)
  · intro rows cols ro co h reg hreg
    rw [coRegions_base _ _ _ _ _ h, List.mem_singleton] at hreg
    subst hreg
    simp only
    omega
  · intro rows cols ro co h hc ih1 ih2 reg hreg
    rw [coRegions_splitCols _ _ _ _ _ h hc, List.mem_append] at hreg
    rcases hreg with hreg | hreg
    · exact ih1 reg hreg
    · exact ih2 reg hreg
  · intro rows cols ro co h hc ih1 ih2 reg hreg
    rw [coRegions_splitRows _ _ _ _ _ h hc, List.mem_append] at hreg
    rcases hreg with hreg | hreg
    · exact ih1 reg hreg
    · exact ih2 reg hreg

theorem naive_empty {α : Type} (inMatrix outMatrix : matrix α) (ro co m : Nat) :
    matrix_transpose_naive inMatrix outMatrix 0 0 ro co m = some (inMatrix, outMatrix) := by
  have h : uadd ro 0 - ro = 0 := by
    have : uadd ro 0 ≤ ro := Nat.mod_le _ _
    omega
  unfold matrix_transpose_naive forLoop
  simp only [h, List.range'_zero, List.foldlM_nil]
  rfl

theorem naiveOnRegions_empty {α : Type} (regs : List Region)
    (h : ∀ reg ∈ regs, reg.rows = 0 ∧ reg.cols = 0) (inMatrix outMatrix : matrix α) :
    naiveOnRegions inMatrix outMatrix regs = some (inMatrix, outMatrix) := by
  induction regs with
  | nil => rfl
  | cons reg regs ih =>
    have h0 := h reg (List.mem_cons_self _ _)
    have e : naiveOnRegions inMatrix outMatrix (reg :: regs)
        = (matrix_transpose_naive inMatrix outMatrix reg.rows reg.cols reg.rowOffset
            reg.colOffset 0).bind fun m => naiveOnRegions m.1 m.2 regs := by
      unfold naiveOnRegions
      rw [List.foldlM_cons]
      rfl
    rw [e, h0.1, h0.2, naive_empty]
    exact ih (fun r hr => h r (List.mem_cons_of_mem _ hr))

theorem half_pow_two {n b : Nat} (hn : n = 2 ^ b) (h2 : 2 ≤ n) :
    (∃ c, n / 2 = 2 ^ c) ∧ n / 2 + n / 2 = n := by
  cases b with
  | zero => simp at hn; omega
  | succ c =>
    have e : n = 2 * 2 ^ c := by rw [hn, pow_succ, Nat.mul_comm]
    exact ⟨⟨c, by omega⟩, by omega⟩

theorem covers_iff (reg : Region) (i j : Nat) (hr : reg.rowOffset + reg.rows < UINT_RANGE)
    (hc : reg.colOffset + reg.cols < UINT_RANGE) :
    reg.covers i j = true ↔ (reg.rowOffset ≤ i ∧ i < reg.rowOffset + reg.rows ∧
      reg.colOffset ≤ j ∧ j < reg.colOffset + reg.cols) := by
  unfold Region.covers
  rw [uadd_eq hr, uadd_eq hc, decide_eq_true_iff]

/-- For power-of-two dimensions and `minSubMatrixSize ≥ 1` the number of base-case regions
containing a cell is 1 for the cells of the requested region and 0 for all others. -/
theorem coRegions_count_pow2 (minSubMatrixSize : Nat) (hmin : 1 ≤ minSubMatrixSize) :
    ∀ rows cols ro co, (∃ a, rows = 2 ^ a) → (∃ b, cols = 2 ^ b) →
      ro + rows < UINT_RANGE → co + cols < UINT_RANGE → ∀ i j,
      (coRegions rows cols ro co minSubMatrixSize).countP (fun reg => reg.covers i j)
        = if ro ≤ i ∧ i < ro + rows ∧ co ≤ j ∧ j < co + cols then 1 else 0 := by
  apply co_induct minSubMatrixSize
    (fun rows cols ro co => (∃ a, rows = 2 ^ a) → (∃ b, cols = 2 ^ b) →
      ro + rows < UINT_RANGE → co + cols < UINT_RANGE → ∀ i j,
      (coRegions rows cols ro co minSubMatrixSize).countP (fun reg => reg.covers i j)
        = if ro ≤ i ∧ i < ro + rows ∧ co ≤ j ∧ j < co + cols then 1 else 0)
  · intro rows cols ro co h _ _ hro hco i j
    rw [coRegions_base _ _ _ _ _ h]
    have hcov := covers_iff ⟨rows, cols, ro, co⟩ i j hro hco
    simp only at hcov
    by_cases hb : ro ≤ i ∧ i < ro + rows ∧ co ≤ j ∧ j < co + cols
    · rw [if_pos hb]
      simp [List.countP_cons, hcov.2 hb]
    · rw [if_neg hb]
      have : (⟨rows, cols, ro, co⟩ : Region).covers i j = false := by
        cases hx : (⟨rows, cols, ro, co⟩ : Region).covers i j with
        | false => rfl
        | true => exact absurd (hcov.1 hx) hb
      simp [List.countP_cons, this]
  · intro rows cols ro co h hc ih1 ih2 hr hcp hro hco i j
    obtain ⟨b, hb⟩ := hcp
    have h2 : 2 ≤ cols := by omega
    obtain ⟨hp, hsum⟩ := half_pow_two hb h2
    rw [coRegions_splitCols _ _ _ _ _ h hc, List.countP_append,
      ih1 hr hp hro (by omega) i j]
    have e : uadd co (cols / 2) = co + cols / 2 := uadd_eq (by omega)
    rw [e] at ih2
    rw [e, ih2 hr hp hro (by omega) i j]
    split_ifs <;> omega
  · intro rows cols ro co h hc ih1 ih2 hrp hcp hro hco i j
    obtain ⟨a, ha⟩ := hrp
    have h2 : 2 ≤ rows := by omega
    obtain ⟨hp, hsum⟩ := half_pow_two ha h2
    rw [coRegions_splitRows _ _ _ _ _ h hc, List.countP_append,
      ih1 hp hcp (by omega) hco i j]
    have e : uadd ro (rows / 2) = ro + rows / 2 := uadd_eq (by omega)
    rw [e] at ih2
    rw [e, ih2 hp hcp (by omega) hco i j]
    split_ifs <;> omega

/-! ## Index safety and same-index copies of the recursive transpose -/

/-- When every index `matrix_transpose_naive` would use on the region is inside its buffer
and nothing overflows, `matrix_transpose_co` on the same region performs only in-bounds
accesses: it returns, with the input untouched and the output length preserved. -/
theorem co_index_safe {α : Type} (minSubMatrixSize : Nat) :
    ∀ (rows cols ro co : Nat) (inMatrix outMatrix : matrix α),
      ro + rows < UINT_RANGE → co + cols < UINT_RANGE →
      (∀ i j, ro ≤ i → i < ro + rows → co ≤ j → j < co + cols →
        i * rows + j < inMatrix.elements.length) →
      (∀ i j, ro ≤ i → i < ro + rows → co ≤ j → j < co + cols →
        j * rows + i < outMatrix.elements.length) →
      inMatrix.elements.length ≤ UINT_RANGE → outMatrix.elements.length ≤ UINT_RANGE →
      ∃ e, matrix_transpose_co inMatrix outMatrix rows cols ro co minSubMatrixSize
            = some (inMatrix, { outMatrix with elements := e }) ∧
        e.length = outMatrix.elements.length := by
  apply co_induct minSubMatrixSize
    (fun rows cols ro co => ∀ (inMatrix outMatrix : matrix α),
      ro + rows < UINT_RANGE → co + cols < UINT_RANGE →
      (∀ i j, ro ≤ i → i < ro + rows → co ≤ j → j < co + cols →
        i * rows + j < inMatrix.elements.length) →
      (∀ i j, ro ≤ i → i < ro + rows → co ≤ j → j < co + cols →
        j * rows + i < outMatrix.elements.length) →
      inMatrix.elements.length ≤ UINT_RANGE → outMatrix.elements.length ≤ UINT_RANGE →
      ∃ e, matrix_transpose_co inMatrix outMatrix rows cols ro co minSubMatrixSize
            = some (inMatrix, { outMatrix with elements := e }) ∧
        e.length = outMatrix.elements.length)
  · intro rows cols ro co h inMatrix outMatrix hro hco hin hout hinU houtU
    obtain ⟨e, he, hlen, _⟩ :=
      naive_spec inMatrix outMatrix rows cols ro co 0 hro hco hin hout hinU houtU
    refine ⟨e, ?_, hlen⟩
    rw [matrix_transpose_co]
    simp only [h, if_false]
    exact he
  · intro rows cols ro co h hc ih1 ih2 inMatrix outMatrix hro hco hin hout hinU houtU
    have e : uadd co (cols / 2) = co + cols / 2 := uadd_eq (by omega)
    rw [e] at ih2
    obtain ⟨e1, he1, hl1⟩ := ih1 inMatrix outMatrix hro (by omega)
      (fun i j h1 h2 h3 h4 => hin i j h1 h2 h3 (by omega))
      (fun i j h1 h2 h3 h4 => hout i j h1 h2 h3 (by omega)) hinU houtU
    obtain ⟨e2, he2, hl2⟩ := ih2 inMatrix { outMatrix with elements := e1 } hro (by omega)
      (fun i j h1 h2 h3 h4 => hin i j h1 h2 (by omega) (by omega))
      (fun i j h1 h2 h3 h4 => by
        simp only [hl1]
        exact hout i j h1 h2 (by omega) (by omega)) hinU (by simp only [hl1]; exact houtU)
    refine ⟨e2, ?_, by rw [hl2]; exact hl1⟩
    rw [matrix_transpose_co]
    simp only [h, hc, if_true]
    rw [he1, Option.some_bind, e]
    exact he2
  · intro rows cols ro co h hc ih1 ih2 inMatrix outMatrix hro hco hin hout hinU houtU
    have e : uadd ro (rows / 2) = ro + rows / 2 := uadd_eq (by omega)
    rw [e] at ih2
    have hle : rows / 2 ≤ rows := Nat.div_le_self _ _
    have hmul : ∀ i, i * (rows / 2) ≤ i * rows := fun i => Nat.mul_le_mul_left i hle
    obtain ⟨e1, he1, hl1⟩ := ih1 inMatrix outMatrix (by omega) hco
      (fun i j h1 h2 h3 h4 => by
        have := hin i j h1 (by omega) h3 h4
        have := hmul i
        omega)
      (fun i j h1 h2 h3 h4 => by
        have := hout i j h1 (by omega) h3 h4
        have := hmul j
        omega) hinU houtU
    obtain ⟨e2, he2, hl2⟩ := ih2 inMatrix { outMatrix with elements := e1 } (by omega) hco
      (fun i j h1 h2 h3 h4 => by
        have := hin i j (by omega) (by omega) h3 h4
        have := hmul i
        omega)
      (fun i j h1 h2 h3 h4 => by
        simp only [hl1]
        have := hout i j (by omega) (by omega) h3 h4
        have := hmul j
        omega) hinU (by simp only [hl1]; exact houtU)
    refine ⟨e2, ?_, by rw [hl2]; exact hl1⟩
    rw [matrix_transpose_co]
    simp only [h, hc, if_true, if_false]
    rw [he1, Option.some_bind, e]
    exact he2

theorem naiveWrites_same_index {α : Type} (inE : List α) (rows cols ro co : Nat)
    (hrows : rows ≤ 1) (ws : List (Nat × α))
    (hws : naiveWrites inE rows cols ro co = some ws) :
    ∀ p ∈ ws, inE[p.1]? = some p.2 := by
  intro p hp
  unfold naiveWrites at hws
  rw [gather_mem _ _ ws hws] at hp
  obtain ⟨i, hi, a, ha, hpa⟩ := hp
  rw [gather_mem _ _ a ha] at hpa
  obtain ⟨j, _, b, hb, hpb⟩ := hpa
  rw [List.mem_range'_1] at hi
  simp only [Option.map_eq_some'] at hb
  obtain ⟨v, hv, rfl⟩ := hb
  rw [List.mem_singleton] at hpb
  have h1 : uadd ro rows ≤ ro + rows := Nat.mod_le _ _
  have hr1 : rows = 1 := by omega
  subst hr1
  have e : uadd (umul j 1) i = uadd (umul i 1) j := by
    unfold uadd umul
    rw [Nat.mul_one, Nat.mul_one, Nat.mod_add_mod, Nat.mod_add_mod, Nat.add_comm]
  rw [hpb]
  simp only
  rw [e]
  exact hv

theorem naive_same_index {α : Type} (inMatrix outMatrix : matrix α)
    (rows cols ro co m : Nat) (hrows : rows ≤ 1) (r : matrix α × matrix α)
    (hr : matrix_transpose_naive inMatrix outMatrix rows cols ro co m = some r) :
    r.1 = inMatrix ∧ r.2.elements.length = outMatrix.elements.length ∧
      ∀ k : Nat, r.2.elements[k]? = outMatrix.elements[k]? ∨
        r.2.elements[k]? = inMatrix.elements[k]? := by
  obtain ⟨ws, hws, hw, hreq⟩ := naive_some_inv inMatrix outMatrix rows cols ro co m r hr
  refine ⟨by rw [hreq], writeAll_length ws _ _ hw, fun k => ?_⟩
  by_cases hk : ∃ p ∈ ws, p.1 = k
  · right
    rw [writeAll_lastWrite k ws _ _ hw hk]
    cases hl : lastWrite ws k with
    | none =>
      obtain ⟨p, hp, hpk⟩ := hk
      exact absurd hpk (lastWrite_eq_none k ws hl p hp)
    | some v =>
      have hm := lastWrite_eq_some k v ws hl
      exact (naiveWrites_same_index inMatrix.elements rows cols ro co hrows ws hws _ hm).symm
  · left
    apply writeAll_frame k ws _ _ hw
    intro p hp hpk
    exact hk ⟨p, hp, hpk⟩

theorem naiveOnRegions_cons {α : Type} (inMatrix outMatrix : matrix α) (reg : Region)
    (regs : List Region) :
    naiveOnRegions inMatrix outMatrix (reg :: regs)
      = (matrix_transpose_naive inMatrix outMatrix reg.rows reg.cols reg.rowOffset
          reg.colOffset 0).bind fun m => naiveOnRegions m.1 m.2 regs := by
  unfold naiveOnRegions
  rw [List.foldlM_cons]
  rfl

theorem naiveOnRegions_same_index {α : Type} (regs : List Region)
    (h : ∀ reg ∈ regs, reg.rows ≤ 1) :
    ∀ (inMatrix outMatrix : matrix α) (r : matrix α × matrix α),
      naiveOnRegions inMatrix outMatrix regs = some r →
      r.1 = inMatrix ∧ r.2.elements.length = outMatrix.elements.length ∧
        ∀ k : Nat, r.2.elements[k]? = outMatrix.elements[k]? ∨
          r.2.elements[k]? = inMatrix.elements[k]? := by
  induction regs with
  | nil =>
    intro inMatrix outMatrix r hr
    simp only [naiveOnRegions, List.foldlM_nil] at hr
    cases hr
    exact ⟨rfl, rfl, fun k => Or.inl rfl⟩
  | cons reg regs ih =>
    intro inMatrix outMatrix r hr
    rw [naiveOnRegions_cons, Option.bind_eq_some] at hr
    obtain ⟨m, hm, hrest⟩ := hr
    obtain ⟨m1, m2, m3⟩ := naive_same_index inMatrix outMatrix reg.rows reg.cols
      reg.rowOffset reg.colOffset 0 (h reg (List.mem_cons_self _ _)) m hm
    obtain ⟨r1, r2, r3⟩ := ih (fun x hx => h x (List.mem_cons_of_mem _ hx)) m.1 m.2 r hrest
    refine ⟨by rw [r1, m1], by rw [r2, m2], fun k => ?_⟩
    rcases r3 k with hk | hk
    · rcases m3 k with hk2 | hk2
      · exact Or.inl (by rw [hk, hk2])
      · exact Or.inr (by rw [hk, hk2])
    · exact Or.inr (by rw [hk, m1])

/-! ## The indices read and written by the two transposes -/

theorem naiveWrites_write_mem {α : Type} (inE : List α) (rows cols ro co : Nat)
    (ws : List (Nat × α)) (hws : naiveWrites inE rows cols ro co = some ws) (k : Nat) :
    k ∈ naiveWriteIndices rows cols ro co ↔ ∃ p ∈ ws, p.1 = k := by
  unfold naiveWrites at hws
  unfold naiveWriteIndices
  simp only [List.mem_flatMap, List.mem_map]
  constructor
  · rintro ⟨i, hi, j, hj, rfl⟩
    obtain ⟨a, ha⟩ := gather_some_inv _ _ ws hws i hi
    obtain ⟨b, hb⟩ := gather_some_inv _ _ a ha j hj
    have hb2 := hb
    simp only [Option.map_eq_some'] at hb2
    obtain ⟨v, _, hv⟩ := hb2
    refine ⟨(uadd (umul j rows) i, v), ?_, rfl⟩
    rw [gather_mem _ _ ws hws]
    refine ⟨i, hi, a, ha, ?_⟩
    rw [gather_mem _ _ a ha]
    exact ⟨j, hj, b, hb, by rw [← hv]; exact List.mem_singleton_self _⟩
  · rintro ⟨p, hp, rfl⟩
    rw [gather_mem _ _ ws hws] at hp
    obtain ⟨i, hi, a, ha, hpa⟩ := hp
    rw [gather_mem _ _ a ha] at hpa
    obtain ⟨j, hj, b, hb, hpb⟩ := hpa
    simp only [Option.map_eq_some'] at hb
    obtain ⟨v, _, rfl⟩ := hb
    rw [List.mem_singleton] at hpb
    exact ⟨i, hi, j, hj, by rw [hpb]⟩

theorem naiveWrites_read_bounds {α : Type} (inE : List α) (rows cols ro co : Nat)
    (ws : List (Nat × α)) (hws : naiveWrites inE rows cols ro co = some ws) :
    ∀ k ∈ naiveReadIndices rows cols ro co, k < inE.length := by
  intro k hk
  unfold naiveWrites at hws
  unfold naiveReadIndices at hk
  simp only [List.mem_flatMap, List.mem_map] at hk
  obtain ⟨i, hi, j, hj, rfl⟩ := hk
  obtain ⟨a, ha⟩ := gather_some_inv _ _ ws hws i hi
  obtain ⟨b, hb⟩ := gather_some_inv _ _ a ha j hj
  simp only [Option.map_eq_some'] at hb
  obtain ⟨v, hv, _⟩ := hb
  by_contra hlt
  rw [List.getElem?_eq_none (by omega)] at hv
  cases hv

/-- Whenever a call of `matrix_transpose_naive` returns, the input indices it reads and the
output indices it writes are inside the buffers, and every output entry at an index it does
not write is unchanged. -/
theorem naive_accesses {α : Type} (inMatrix outMatrix : matrix α)
    (rows cols ro co m : Nat) (r : matrix α × matrix α)
    (hr : matrix_transpose_naive inMatrix outMatrix rows cols ro co m = some r) :
    r.1 = inMatrix ∧ r.2.elements.length = outMatrix.elements.length ∧
    (∀ k ∈ naiveReadIndices rows cols ro co, k < inMatrix.elements.length) ∧
    (∀ k ∈ naiveWriteIndices rows cols ro co, k < outMatrix.elements.length) ∧
    (∀ k, k ∉ naiveWriteIndices rows cols ro co →
      r.2.elements[k]? = outMatrix.elements[k]?) := by
  obtain ⟨ws, hws, hw, hreq⟩ := naive_some_inv inMatrix outMatrix rows cols ro co m r hr
  refine ⟨by rw [hreq], writeAll_length ws _ _ hw,
    naiveWrites_read_bounds _ _ _ _ _ ws hws, ?_, ?_⟩
  · intro k hk
    obtain ⟨p, hp, rfl⟩ := (naiveWrites_write_mem _ _ _ _ _ ws hws k).1 hk
    exact writeAll_bounds ws _ _ hw p hp
  · intro k hk
    apply writeAll_frame k ws _ _ hw
    intro p hp hpk
    exact hk ((naiveWrites_write_mem _ _ _ _ _ ws hws k).2 ⟨p, hp, hpk⟩)

theorem naiveOnRegions_accesses {α : Type} (regs : List Region) :
    ∀ (inMatrix outMatrix : matrix α) (r : matrix α × matrix α),
      naiveOnRegions inMatrix outMatrix regs = some r →
      r.1 = inMatrix ∧ r.2.elements.length = outMatrix.elements.length ∧
      (∀ k ∈ regs.flatMap (fun reg =>
          naiveReadIndices reg.rows reg.cols reg.rowOffset reg.colOffset),
        k < inMatrix.elements.length) ∧
      (∀ k ∈ regs.flatMap (fun reg =>
          naiveWriteIndices reg.rows reg.cols reg.rowOffset reg.colOffset),
        k < outMatrix.elements.length) ∧
      (∀ k, k ∉ regs.flatMap (fun reg =>
          naiveWriteIndices reg.rows reg.cols reg.rowOffset reg.colOffset) →
        r.2.elements[k]? = outMatrix.elements[k]?) := by
  induction regs with
  | nil =>
    intro inMatrix outMatrix r hr
    simp only [naiveOnRegions, List.foldlM_nil] at hr
    cases hr
    simp
  | cons reg regs ih =>
    intro inMatrix outMatrix r hr
    rw [naiveOnRegions_cons, Option.bind_eq_some] at hr
    obtain ⟨m, hm, hrest⟩ := hr
    obtain ⟨m1, m2, m3, m4, m5⟩ := naive_accesses inMatrix outMatrix reg.rows reg.cols
      reg.rowOffset reg.colOffset 0 m hm
    obtain ⟨r1, r2, r3, r4, r5⟩ := ih m.1 m.2 r hrest
    rw [m1] at r3
    rw [m2] at r4
    refine ⟨by rw [r1, m1], by rw [r2, m2], ?_, ?_, ?_⟩
    · intro k hk
      rw [List.flatMap_cons, List.mem_append] at hk
      rcases hk with hk | hk
      · exact m3 k hk
      · exact r3 k hk
    · intro k hk
      rw [List.flatMap_cons, List.mem_append] at hk
      rcases hk with hk | hk
      · exact m4 k hk
      · exact r4 k hk
    · intro k hk
      rw [List.flatMap_cons, List.mem_append, not_or] at hk
      rw [r5 k hk.2, m5 k hk.1]

/-- Whenever a call of `matrix_transpose_co` returns, every input index it reads and every
output index it writes is inside its buffer, and output entries it does not write are
unchanged. -/
theorem co_accesses {α : Type} (inMatrix outMatrix : matrix α)
    (rows cols ro co minSubMatrixSize : Nat) (r : matrix α × matrix α)
    (hr : matrix_transpose_co inMatrix outMatrix rows cols ro co minSubMatrixSize = some r) :
    r.1 = inMatrix ∧ r.2.elements.length = outMatrix.elements.length ∧
    (∀ k ∈ coReadIndices rows cols ro co minSubMatrixSize, k < inMatrix.elements.length) ∧
    (∀ k ∈ coWriteIndices rows cols ro co minSubMatrixSize,
      k < outMatrix.elements.length) ∧
    (∀ k, k ∉ coWriteIndices rows cols ro co minSubMatrixSize →
      r.2.elements[k]? = outMatrix.elements[k]?) := by
  rw [co_eq_regions] at hr
  exact naiveOnRegions_accesses _ inMatrix outMatrix r hr

/-! ## Random initialisation -/

theorem randInt_spec (m : matrix Int) (upper_limit : Nat) (rand : Nat → Nat)
    (hU : 0 < upper_limit) (hov : m.rows * m.cols < UINT_RANGE)
    (hlen : m.rows * m.cols ≤ m.elements.length) :
    ∃ e, randInt_init_matrix m upper_limit rand = some { m with elements := e } ∧
      e.length = m.elements.length ∧
      ∀ i, i < m.rows * m.cols →
        e[i]? = some (((rand i % UINT_RANGE) % upper_limit : Nat) : Int) := by
  have hne : upper_limit ≠ 0 := by omega
  have hmul : umul m.rows m.cols = m.rows * m.cols := Nat.mod_eq_of_lt hov
  have hloop := forLoop_eq_gather 0 (umul m.rows m.cols)
    (fun i buf => if upper_limit = 0 then none
      else store buf i (((rand i % UINT_RANGE) % upper_limit : Nat) : Int))
    (fun i => some [(i, (((rand i % UINT_RANGE) % upper_limit : Nat) : Int))])
    (by intro k s; simp [hne, writeAll]) m.elements
  obtain ⟨ws, hws⟩ := gather_isSome
    (fun i => some [(i, (((rand i % UINT_RANGE) % upper_limit : Nat) : Int))])
    (List.range' 0 (umul m.rows m.cols - 0)) (fun k _ => ⟨_, rfl⟩)
  have hmem := gather_mem _ _ ws hws
  have hchar : ∀ p, p ∈ ws ↔ ∃ i, i < m.rows * m.cols ∧
      p = (i, (((rand i % UINT_RANGE) % upper_limit : Nat) : Int)) := by
    intro p
    rw [hmem p]
    constructor
    · rintro ⟨k, hk, a, ha, hp⟩
      rw [List.mem_range'_1, hmul] at hk
      cases ha
      rw [List.mem_singleton] at hp
      exact ⟨k, by omega, hp⟩
    · rintro ⟨i, hi, hp⟩
      exact ⟨i, List.mem_range'_1.2 (by rw [hmul]; omega), _, rfl, by
        rw [hp]; exact List.mem_singleton_self _⟩
  obtain ⟨e, he⟩ := writeAll_isSome ws m.elements (by
    intro p hp
    obtain ⟨i, hi, rfl⟩ := (hchar p).1 hp
    exact lt_of_lt_of_le hi hlen)
  refine ⟨e, ?_, writeAll_length ws _ e he, ?_⟩
  · unfold randInt_init_matrix
    rw [hloop, hws]
    simp [he]
  · intro i hi
    apply writeAll_get _ _ ws _ e he ((hchar _).2 ⟨i, hi, rfl⟩)
    intro p hp hpd
    obtain ⟨i2, _, rfl⟩ := (hchar p).1 hp
    simp only at hpd
    subst hpd
    rfl

/-! ## Claims about random initialisation and printing -/

/-- C11: for every integer matrix with `rows * cols < 2 ^ 32` elements inside its buffer and
every `upper_limit` `U > 0`, whatever values `rand()` returns, `randInt_init_matrix` succeeds
and overwrites each of the `rows * cols` elements with `rand() % U`, a value `v` with
`0 ≤ v < U`; the dimension fields are unchanged. -/
theorem randInt_values_in_range (m : matrix Int) (upper_limit : Nat) (rand : Nat → Nat)
    (hU : 0 < upper_limit) (hov : m.rows * m.cols < UINT_RANGE)
    (hlen : m.rows * m.cols ≤ m.elements.length) :
    ∃ e, randInt_init_matrix m upper_limit rand = some { m with elements := e } ∧
      e.length = m.elements.length ∧
      ∀ i, i < m.rows * m.cols →
        ∃ v : Int, e[i]? = some v ∧ 0 ≤ v ∧ v < (upper_limit : Int) ∧
          v = (((rand i % UINT_RANGE) % upper_limit : Nat) : Int) := by
  obtain ⟨e, he, hl, hget⟩ := randInt_spec m upper_limit rand hU hov hlen
  refine ⟨e, he, hl, fun i hi => ⟨_, hget i hi, Int.ofNat_nonneg _, ?_, rfl⟩⟩
  exact Int.ofNat_lt.2 (Nat.mod_lt _ hU)

/-- Witness for C11: a `2 x 2` matrix, `U = 10` and the values `25, 32, 39, 46`. -/
theorem randInt_values_in_range_witness :
    ∃ e, randInt_init_matrix ⟨2, 2, [0, 0, 0, 0]⟩ 10 (fun k => 7 * k + 25)
        = some { (⟨2, 2, [0, 0, 0, 0]⟩ : matrix Int) with elements := e } ∧
      e.length = (⟨2, 2, [0, 0, 0, 0]⟩ : matrix Int).elements.length ∧
      ∀ i, i < (⟨2, 2, [0, 0, 0, 0]⟩ : matrix Int).rows
            * (⟨2, 2, [0, 0, 0, 0]⟩ : matrix Int).cols →
        ∃ v : Int, e[i]? = some v ∧ 0 ≤ v ∧ v < ((10 : Nat) : Int) ∧
          v = ((((fun k => 7 * k + 25) i % UINT_RANGE) % 10 : Nat) : Int) :=
  randInt_values_in_range ⟨2, 2, [0, 0, 0, 0]⟩ 10 (fun k => 7 * k + 25)
    (by decide) (by decide) (by decide)

/-- C12 (defect in the code): `print_matrix` addresses element (i,j) at index `i*rows + j`.
The `2 x 2` matrix `[[1,2],[3,4]]` prints as the specification says, but for the `2 x 3`
row-major matrix `[[1,2,3],[4,5,6]]` every read is in bounds and the text is
`1 2 3 \n3 4 5 \n\n`, whereas the row-major text is `1 2 3 \n4 5 6 \n\n`. -/
theorem print_rectangular_wrong_row :
    print_matrix (fun v : Int => toString v) ⟨2, 2, [1, 2, 3, 4]⟩ ""
      = some "1 2 \n3 4 \n\n" ∧
    print_matrix (fun v : Int => toString v) ⟨2, 3, [1, 2, 3, 4, 5, 6]⟩ ""
      = some "1 2 3 \n3 4 5 \n\n" ∧
    rowMajorText (fun v : Int => toString v) 2 3 [1, 2, 3, 4, 5, 6]
      = some "1 2 3 \n4 5 6 \n\n" := by
  refine ⟨by decide, by decide, by decide⟩

/-! ## Claims about the recursion of `matrix_transpose_co` -/

/-- C13 (defect in the code): with `rows = 1`, `cols = 3`, `minSubMatrixSize = 1` the two
recursive calls both get `cols / 2 = 1` columns (the second one the region of width 1 at
column 1, not the remainder of width 2), so the base-case regions are `(0,0)` and `(0,1)`
only: the cell `(0,2)` of the requested region lies in no base-case region, and the run on
`[1,2,3]` leaves the third output entry untouched. -/
theorem co_odd_width_drops_cell :
    coRegions 1 3 0 0 1 = [⟨1, 1, 0, 0⟩, ⟨1, 1, 0, 1⟩] ∧
    (coRegions 1 3 0 0 1).countP (fun reg => reg.covers 0 2) = 0 ∧
    matrix_transpose_co ⟨1, 3, [1, 2, 3]⟩ ⟨3, 1, [0, 0, 0]⟩ 1 3 0 0 1
      = some (⟨1, 3, [1, 2, 3]⟩, ⟨3, 1, [1, 2, 0]⟩) := by
  have h : coRegions 1 3 0 0 1 = [⟨1, 1, 0, 0⟩, ⟨1, 1, 0, 1⟩] := by
    simp [coRegions]
    decide
  refine ⟨h, ?_, ?_⟩
  · rw [h]
    decide
  · rw [co_eq_regions, h]
    decide

/-- C14: for every region with `max(rows, cols) ≤ minSubMatrixSize`, `matrix_transpose_co`
performs no split: its only base-case region is the whole region, and the call is exactly
the one call `matrix_transpose_naive(in, out, rows, cols, rowOffset, colOffset)`. -/
theorem co_base_case_is_naive {α : Type} (inMatrix outMatrix : matrix α)
    (rows cols rowOffset colOffset minSubMatrixSize : Nat)
    (h : max rows cols ≤ minSubMatrixSize) :
    coRegions rows cols rowOffset colOffset minSubMatrixSize
      = [⟨rows, cols, rowOffset, colOffset⟩] ∧
    matrix_transpose_co inMatrix outMatrix rows cols rowOffset colOffset minSubMatrixSize
      = matrix_transpose_naive inMatrix outMatrix rows cols rowOffset colOffset 0 := by
  have hr : rows ≤ minSubMatrixSize := le_trans (le_max_left _ _) h
  have hc : cols ≤ minSubMatrixSize := le_trans (le_max_right _ _) h
  exact ⟨coRegions_base _ _ _ _ _ (by omega), co_base _ _ _ _ _ _ _ hr hc⟩

/-- Witness for C14: a `2 x 3` region with `minSubMatrixSize = 3`. -/
theorem co_base_case_is_naive_witness :
    coRegions 2 3 0 0 3 = [⟨2, 3, 0, 0⟩] ∧
    matrix_transpose_co (⟨2, 3, [1, 2, 3, 4, 5, 6]⟩ : matrix Nat)
        ⟨3, 2, [0, 0, 0, 0, 0, 0]⟩ 2 3 0 0 3
      = matrix_transpose_naive ⟨2, 3, [1, 2, 3, 4, 5, 6]⟩ ⟨3, 2, [0, 0, 0, 0, 0, 0]⟩
          2 3 0 0 0 :=
  co_base_case_is_naive _ _ 2 3 0 0 3 (by decide)

/-- C15 (defect in the code): at the split of the `2 x 2` region with
`minSubMatrixSize = 1` the first recursive call (columns 0..0) writes the output indices
`0, 1` and the second (columns 1..1) writes `1, 2`: both write index 1. Run separately on an
output of zeros, the first leaves `[1,2,0,0]` and the second `[0,2,3,0]`. -/
theorem co_subcalls_write_common_index :
    coRegions 2 2 0 0 1 = coRegions 2 1 0 0 1 ++ coRegions 2 1 0 1 1 ∧
    coWriteIndices 2 1 0 0 1 = [0, 1] ∧
    coWriteIndices 2 1 0 1 1 = [1, 2] ∧
    (1 ∈ coWriteIndices 2 1 0 0 1 ∧ 1 ∈ coWriteIndices 2 1 0 1 1) ∧
    matrix_transpose_co ⟨2, 2, [1, 2, 3, 4]⟩ ⟨2, 2, [0, 0, 0, 0]⟩ 2 1 0 0 1
      = some (⟨2, 2, [1, 2, 3, 4]⟩, ⟨2, 2, [1, 2, 0, 0]⟩) ∧
    matrix_transpose_co ⟨2, 2, [1, 2, 3, 4]⟩ ⟨2, 2, [0, 0, 0, 0]⟩ 2 1 0 1 1
      = some (⟨2, 2, [1, 2, 3, 4]⟩, ⟨2, 2, [0, 2, 3, 0]⟩) := by
  have h1 : coWriteIndices 2 1 0 0 1 = [0, 1] := by
    simp [coWriteIndices, coRegions]
    decide
  have h2 : coWriteIndices 2 1 0 1 1 = [1, 2] := by
    simp [coWriteIndices, coRegions]
    decide
  refine ⟨?_, h1, h2, ⟨by rw [h1]; decide, by rw [h2]; decide⟩, ?_, ?_⟩
  · have e := coRegions_splitCols 2 2 0 0 1 (by decide) (by decide)
    have u : uadd 0 (2 / 2) = 1 := by decide
    rw [u] at e
    exact e
  · simp [matrix_transpose_co]
    decide
  · simp [matrix_transpose_co]
    decide

/-- C16 (defect in the code): for the even dimensions `rows = 2`, `cols = 6` and
`minSubMatrixSize = 2` the first split halves 6 into the odd width 3, whose split gives two
regions of width 1: the base-case regions are the columns 0, 1, 3 and 4, so the cell `(0,2)`
of the requested region (and every cell of columns 2 and 5) lies in no base-case region. -/
theorem co_even_dims_drop_cell :
    coRegions 2 6 0 0 2 = [⟨2, 1, 0, 0⟩, ⟨2, 1, 0, 1⟩, ⟨2, 1, 0, 3⟩, ⟨2, 1, 0, 4⟩] ∧
    (coRegions 2 6 0 0 2).countP (fun reg => reg.covers 0 2) = 0 ∧
    (coRegions 2 6 0 0 2).countP (fun reg => reg.covers 1 5) = 0 := by
  have h : coRegions 2 6 0 0 2
      = [⟨2, 1, 0, 0⟩, ⟨2, 1, 0, 1⟩, ⟨2, 1, 0, 3⟩, ⟨2, 1, 0, 4⟩] := by
    simp [coRegions]
    decide
  refine ⟨h, ?_, ?_⟩
  · rw [h]
    decide
  · rw [h]
    decide

/-- C17: with the default floor `minSubMatrixSize = 1`, `matrix_transpose_co` only copies
same-index elements. Every base-case call has row count at most 1 (and column count at most
1), each assignment of such a call stores at an output index the input entry of the same
index, and whenever the call returns (every access in bounds) the input is unchanged and
every output entry `out[k]` equals its prior value or `in[k]`. The call does return when
every index `matrix_transpose_naive` would use on the region is in bounds. -/
theorem co_default_floor_copies_same_index {α : Type} (inMatrix outMatrix : matrix α)
    (rows cols rowOffset colOffset : Nat) :
    (∀ reg ∈ coRegions rows cols rowOffset colOffset 1, reg.rows ≤ 1 ∧ reg.cols ≤ 1) ∧
    (∀ reg ∈ coRegions rows cols rowOffset colOffset 1, ∀ ws,
      naiveWrites inMatrix.elements reg.rows reg.cols reg.rowOffset reg.colOffset = some ws →
      ∀ p ∈ ws, inMatrix.elements[p.1]? = some p.2) ∧
    (∀ r, matrix_transpose_co inMatrix outMatrix rows cols rowOffset colOffset 1 = some r →
      r.1 = inMatrix ∧ r.2.elements.length = outMatrix.elements.length ∧
      ∀ k : Nat, r.2.elements[k]? = outMatrix.elements[k]? ∨
        r.2.elements[k]? = inMatrix.elements[k]?) ∧
    (rowOffset + rows < UINT_RANGE → colOffset + cols < UINT_RANGE →
      (∀ i j, rowOffset ≤ i → i < rowOffset + rows → colOffset ≤ j → j < colOffset + cols →
        i * rows + j < inMatrix.elements.length) →
      (∀ i j, rowOffset ≤ i → i < rowOffset + rows → colOffset ≤ j → j < colOffset + cols →
        j * rows + i < outMatrix.elements.length) →
      inMatrix.elements.length ≤ UINT_RANGE → outMatrix.elements.length ≤ UINT_RANGE →
      ∃ r, matrix_transpose_co inMatrix outMatrix rows cols rowOffset colOffset 1
        = some r) := by
  have hsmall := coRegions_small 1 rows cols rowOffset colOffset
  refine ⟨hsmall, ?_, ?_, ?_⟩
  · intro reg hreg ws hws
    exact naiveWrites_same_index _ _ _ _ _ (hsmall reg hreg).1 ws hws
  · intro r hr
    rw [co_eq_regions] at hr
    exact naiveOnRegions_same_index _ (fun reg hreg => (hsmall reg hreg).1) _ _ r hr
  · intro hro hco hin hout hinU houtU
    obtain ⟨e, he, _⟩ := co_index_safe 1 rows cols rowOffset colOffset inMatrix outMatrix
      hro hco hin hout hinU houtU
    exact ⟨_, he⟩

/-- Witness for C17: the `2 x 2` run of C1, whose result `[1,2,3,0]` holds `in[k]` at the
indices 0, 1, 2 and the prior value at index 3. -/
theorem co_default_floor_copies_same_index_witness :
    (⟨2, 2, [1, 2, 3, 4]⟩ : matrix Nat) = ⟨2, 2, [1, 2, 3, 4]⟩ ∧
    [1, 2, 3, 0].length = [0, 0, 0, 0].length ∧
    ∀ k : Nat, ([1, 2, 3, 0] : List Nat)[k]? = ([0, 0, 0, 0] : List Nat)[k]? ∨
      ([1, 2, 3, 0] : List Nat)[k]? = ([1, 2, 3, 4] : List Nat)[k]? :=
  (co_default_floor_copies_same_index ⟨2, 2, [1, 2, 3, 4]⟩ ⟨2, 2, [0, 0, 0, 0]⟩
    2 2 0 0).2.2.1 (⟨2, 2, [1, 2, 3, 4]⟩, ⟨2, 2, [1, 2, 3, 0]⟩) (by
      simp [matrix_transpose_co]
      decide)

/-- C18: for power-of-two dimensions `rows = 2^a`, `cols = 2^b`, every
`minSubMatrixSize ≥ 1` and offsets with `rowOffset + rows < 2^32`, `colOffset + cols < 2^32`,
the base-case regions of `matrix_transpose_co` partition the requested region: every cell
of it lies in exactly one base-case region, and no base-case region contains a cell outside
it. -/
theorem co_regions_partition_pow2 (a b rowOffset colOffset minSubMatrixSize : Nat)
    (hmin : 1 ≤ minSubMatrixSize) (hro : rowOffset + 2 ^ a < UINT_RANGE)
    (hco : colOffset + 2 ^ b < UINT_RANGE) :
    (∀ i j, rowOffset ≤ i → i < rowOffset + 2 ^ a → colOffset ≤ j → j < colOffset + 2 ^ b →
      (coRegions (2 ^ a) (2 ^ b) rowOffset colOffset minSubMatrixSize).countP
        (fun reg => reg.covers i j) = 1) ∧
    (∀ reg ∈ coRegions (2 ^ a) (2 ^ b) rowOffset colOffset minSubMatrixSize,
      ∀ i j, reg.covers i j = true →
        rowOffset ≤ i ∧ i < rowOffset + 2 ^ a ∧ colOffset ≤ j ∧ j < colOffset + 2 ^ b) := by
  have key := coRegions_count_pow2 minSubMatrixSize hmin (2 ^ a) (2 ^ b) rowOffset colOffset
    ⟨a, rfl⟩ ⟨b, rfl⟩ hro hco
  constructor
  · intro i j h1 h2 h3 h4
    rw [key i j, if_pos ⟨h1, h2, h3, h4⟩]
  · intro reg hreg i j hcov
    by_contra hout
    have h0 := key i j
    rw [if_neg hout, List.countP_eq_zero] at h0
    exact h0 reg hreg hcov

/-- Witness for C18: the `4 x 2` region at offset `(1, 3)` with `minSubMatrixSize = 1`. -/
theorem co_regions_partition_pow2_witness :
    (∀ i j, 1 ≤ i → i < 1 + 2 ^ 2 → 3 ≤ j → j < 3 + 2 ^ 1 →
      (coRegions (2 ^ 2) (2 ^ 1) 1 3 1).countP (fun reg => reg.covers i j) = 1) ∧
    (∀ reg ∈ coRegions (2 ^ 2) (2 ^ 1) 1 3 1,
      ∀ i j, reg.covers i j = true → 1 ≤ i ∧ i < 1 + 2 ^ 2 ∧ 3 ≤ j ∧ j < 3 + 2 ^ 1) :=
  co_regions_partition_pow2 2 1 1 3 1 (by decide) (by decide) (by decide)

/-- C19: `matrix_transpose_co` is index-safe whenever `matrix_transpose_naive` is. If no
index computation overflows and every index `i*rows + j` read from the input and every index
`j*rows + i` written to the output by `matrix_transpose_naive` over the region is inside
its buffer, then for every `minSubMatrixSize` the call of `matrix_transpose_co` over the
same region returns, and every input index it reads and every output index it writes is
inside its buffer. -/
theorem co_index_safe_when_naive_is {α : Type} (inMatrix outMatrix : matrix α)
    (rows cols rowOffset colOffset minSubMatrixSize : Nat)
    (hro : rowOffset + rows < UINT_RANGE) (hco : colOffset + cols < UINT_RANGE)
    (hin : ∀ i j, rowOffset ≤ i → i < rowOffset + rows → colOffset ≤ j →
      j < colOffset + cols → i * rows + j < inMatrix.elements.length)
    (hout : ∀ i j, rowOffset ≤ i → i < rowOffset + rows → colOffset ≤ j →
      j < colOffset + cols → j * rows + i < outMatrix.elements.length)
    (hinU : inMatrix.elements.length ≤ UINT_RANGE)
    (houtU : outMatrix.elements.length ≤ UINT_RANGE) :
    (∃ r, matrix_transpose_co inMatrix outMatrix rows cols rowOffset colOffset
        minSubMatrixSize = some r) ∧
    (∀ k ∈ coReadIndices rows cols rowOffset colOffset minSubMatrixSize,
      k < inMatrix.elements.length) ∧
    (∀ k ∈ coWriteIndices rows cols rowOffset colOffset minSubMatrixSize,
      k < outMatrix.elements.length) := by
  obtain ⟨e, he, _⟩ := co_index_safe minSubMatrixSize rows cols rowOffset colOffset
    inMatrix outMatrix hro hco hin hout hinU houtU
  obtain ⟨_, _, hr, hw, _⟩ := co_accesses inMatrix outMatrix rows cols rowOffset colOffset
    minSubMatrixSize _ he
  exact ⟨⟨_, he⟩, hr, hw⟩

/-- Witness for C19: a `3 x 3` region of `3 x 3` buffers with `minSubMatrixSize = 2`. -/
theorem co_index_safe_when_naive_is_witness :
    (∃ r, matrix_transpose_co (⟨3, 3, [1, 2, 3, 4, 5, 6, 7, 8, 9]⟩ : matrix Nat)
        ⟨3, 3, [0, 0, 0, 0, 0, 0, 0, 0, 0]⟩ 3 3 0 0 2 = some r) ∧
    (∀ k ∈ coReadIndices 3 3 0 0 2,
      k < (⟨3, 3, [1, 2, 3, 4, 5, 6, 7, 8, 9]⟩ : matrix Nat).elements.length) ∧
    (∀ k ∈ coWriteIndices 3 3 0 0 2,
      k < (⟨3, 3, [0, 0, 0, 0, 0, 0, 0, 0, 0]⟩ : matrix Nat).elements.length) :=
  co_index_safe_when_naive_is ⟨3, 3, [1, 2, 3, 4, 5, 6, 7, 8, 9]⟩
    ⟨3, 3, [0, 0, 0, 0, 0, 0, 0, 0, 0]⟩ 3 3 0 0 2 (by decide) (by decide)
    (fun i j _ h2 _ h4 => by simp only [List.length_cons, List.length_nil]; omega)
    (fun i j _ h2 _ h4 => by simp only [List.length_cons, List.length_nil]; omega)
    (by decide) (by decide)

/-- C20: with `minSubMatrixSize = 0`, `matrix_transpose_co` terminates for every `rows` and
`cols`: `rows + cols` strictly decreases at each split and a recursion depth of
`rows + cols + 1` suffices. It reaches the base case only with `rows = 0` and `cols = 0`, so
it performs no write: the call returns with the output buffer (and the input) unchanged. -/
theorem co_zero_floor_writes_nothing {α : Type} (inMatrix outMatrix : matrix α)
    (rows cols rowOffset colOffset : Nat) :
    matrix_transpose_co inMatrix outMatrix rows cols rowOffset colOffset 0
      = some (inMatrix, outMatrix) ∧
    (∀ fuel, rows + cols < fuel →
      matrix_transpose_co_fuel fuel inMatrix outMatrix rows cols rowOffset colOffset 0
        = some (some (inMatrix, outMatrix))) ∧
    (∀ reg ∈ coRegions rows cols rowOffset colOffset 0, reg.rows = 0 ∧ reg.cols = 0) ∧
    coWriteIndices rows cols rowOffset colOffset 0 = [] ∧
    ((rows > 0 ∨ cols > 0) →
      (cols ≥ rows → rows + cols / 2 < rows + cols) ∧
      (¬ cols ≥ rows → rows / 2 + cols < rows + cols)) := by
  have hzero : ∀ reg ∈ coRegions rows cols rowOffset colOffset 0,
      reg.rows = 0 ∧ reg.cols = 0 := by
    intro reg hreg
    have := coRegions_small 0 rows cols rowOffset colOffset reg hreg
    omega
  have hrun : matrix_transpose_co inMatrix outMatrix rows cols rowOffset colOffset 0
      = some (inMatrix, outMatrix) := by
    rw [co_eq_regions]
    exact naiveOnRegions_empty _ hzero inMatrix outMatrix
  refine ⟨hrun, ?_, hzero, ?_, ?_⟩
  · intro fuel hf
    rw [co_fuel_eq fuel _ _ _ _ _ _ _ hf, hrun]
  · unfold coWriteIndices
    rw [List.flatMap_eq_nil_iff]
    intro reg hreg
    obtain ⟨h1, h2⟩ := hzero reg hreg
    have hle : uadd reg.rowOffset 0 ≤ reg.rowOffset := Nat.mod_le _ _
    have h0 : uadd reg.rowOffset 0 - reg.rowOffset = 0 := by omega
    unfold naiveWriteIndices
    rw [h1, h0]
    rfl
  · intro hs
    constructor
    · intro _; omega
    · intro _; omega

/-- Witness for C20: a `3 x 2` region with `minSubMatrixSize = 0`. -/
theorem co_zero_floor_writes_nothing_witness :
    matrix_transpose_co_fuel 6 (⟨3, 2, [1, 2, 3, 4, 5, 6]⟩ : matrix Nat)
        ⟨2, 3, [9, 9, 9, 9, 9, 9]⟩ 3 2 0 0 0
      = some (some (⟨3, 2, [1, 2, 3, 4, 5, 6]⟩, ⟨2, 3, [9, 9, 9, 9, 9, 9]⟩)) :=
  (co_zero_floor_writes_nothing ⟨3, 2, [1, 2, 3, 4, 5, 6]⟩ ⟨2, 3, [9, 9, 9, 9, 9, 9]⟩
    3 2 0 0).2.1 6 (by decide)

end MatrixFunctions
